import Mathlib

/-!
# Contiguous allocator: a shallow embedding of `array.c` and `memory.c`

The C `struct array` (`int *data; size_t size`) is embedded as the list of its
`size` used cells.  A pointer that may be `NULL` is an `Option`.  Cells are C
`int`s and process names / strategy selectors are C `char`s promoted to `int`;
both are embedded as `Int`.  Indices and sizes are `size_t` and embedded as
`Nat`; every conversion to `int` the source performs is written out with
`to_int` (32-bit two's complement) and every conversion to `size_t` with
`to_size_t` (64 bit).

`new_array` obtains `n + 1` zeroed cells, so the cell just past the used part
reads as `0`; a read `data[i]` is therefore embedded as `getD i 0`.  Writes are
embedded with `List.set`; the memory outside the used cells is not represented.

Loops whose trip count is bounded by a quantity fixed at loop entry are
embedded by structural recursion on that bound.  The two loops without such a
bound (the scan of `unallocated_pools` and the fixed-point loop of
`compact_memory`) take explicit fuel and return `none` when it runs out.
-/

namespace ContiguousAllocator

/-- The used cells of a `struct array`, in index order. -/
abbrev array := List Int

/-- The `memory` typedef of `memory.h`. -/
abbrev memory := array

/-- The tag `'.'` of a FREE slot. -/
def UNALLOCATED : Int := 46

/-- The selector `'F'`. -/
def FIRST_FIT : Int := 70

/-- The selector `'B'`. -/
def BEST_FIT : Int := 66

/-- The selector `'W'`. -/
def WORST_FIT : Int := 87

def INT_MAX : Int := 2147483647

def INT_MIN : Int := -2147483648

/-- Conversion of an integer value to C `int` (32 bit, wrapping). -/
def to_int (x : Int) : Int := (x + 2147483648) % 4294967296 - 2147483648

/-- Conversion of an integer value to C `int64_t` (wrapping). -/
def to_int64 (x : Int) : Int :=
  (x + 9223372036854775808) % 18446744073709551616 - 9223372036854775808

/-- Conversion of an integer value to C `size_t` (64 bit, wrapping). -/
def to_size_t (x : Int) : Nat := (x % 18446744073709551616).toNat

/-! ## array.c -/

/-- The loop of `set_values`: `k` is the number of iterations left. -/
def set_values_loop (value : Int) : Nat → array → Nat → array
  | 0, source, _ => source
  | k + 1, source, start => set_values_loop value k (source.set start value) (start + 1)

/-- `set_values`: `while (start < end) data[start++] = value;` -/
def set_values (source : array) (value : Int) (start end_ : Nat) : array :=
  set_values_loop value (end_ - start) source start

/-- `new_array`: `NULL` for `n = 0`, otherwise `n` cells holding `fill`
(storage exhaustion is not modelled). -/
def new_array (n : Nat) (fill : Int) : Option array :=
  if n = 0 then none else some (set_values (List.replicate n 0) fill 0 n)

/-- The copy loop of `copy_array`. -/
def copy_array_loop (source : array) : Nat → array → Nat → array
  | 0, copy, _ => copy
  | k + 1, copy, i =>
    if i < copy.length ∧ i < source.length then
      copy_array_loop source k (copy.set i (source.getD i 0)) (i + 1)
    else copy

/-- `copy_array`: a fresh array of `n` cells with the first cells of `source`
copied in and the rest `0`; `NULL` for a null or empty source or `n = 0`. -/
def copy_array (source : Option array) (n : Nat) : Option array :=
  match source with
  | none => none
  | some src =>
    if src.length = 0 ∨ n = 0 then none
    else
      match new_array n 0 with
      | none => none
      | some copy => some (copy_array_loop src copy.length copy 0)

/-- The search loop of `array_contains`, over an `int64_t` index. -/
def array_contains_loop (source : array) (value : Int) : Nat → Nat → Int
  | 0, _ => -1
  | k + 1, i =>
    if (i : Int) < to_int64 source.length then
      if source.getD i 0 = value then (i : Int)
      else array_contains_loop source value k (i + 1)
    else -1

/-- `array_contains`: index of the first cell equal to `value`, or `-1`. -/
def array_contains (source : Option array) (value : Int) : Int :=
  match source with
  | none => -1
  | some s => if s.length = 0 then -1 else array_contains_loop s value s.length 0

/-- The comparison loop of `compare_array`. -/
def compare_array_loop (a b : array) : Nat → Nat → Bool
  | 0, _ => true
  | k + 1, i =>
    if i < a.length then
      if a.getD i 0 ≠ b.getD i 0 then false else compare_array_loop a b k (i + 1)
    else true

/-- `compare_array`: `true` stands for the C result `1`. -/
def compare_array (a b : Option array) : Bool :=
  match a, b with
  | none, some _ => false
  | some _, none => false
  | none, none => true
  | some a, some b =>
    if a.length ≠ b.length then false
    else if a.length = 0 then true
    else compare_array_loop a b a.length 0

/-- The loop of `contiguous_count`; `count` is a C `int`. -/
def contiguous_count_loop (source : array) (value : Int) : Nat → Nat → Int → Int
  | 0, _, count => count
  | k + 1, i, count =>
    if i < source.length then
      if source.getD i 0 = value then
        contiguous_count_loop source value k (i + 1) (to_int (count + 1))
      else count
    else count

/-- `contiguous_count`: the `int` counter is returned as a `size_t`. -/
def contiguous_count (source : array) (value : Int) (i : Nat) : Nat :=
  to_size_t (contiguous_count_loop source value (source.length - i) i 0)

/-- The loop of `find_largest`. -/
def find_largest_loop (source : array) : Nat → Nat → Int → Int
  | 0, _, largest => largest
  | k + 1, i, largest =>
    if i < source.length then
      find_largest_loop source k (i + 1)
        (if largest > source.getD i 0 then largest else source.getD i 0)
    else largest

/-- `find_largest`: running maximum from `INT_MIN`. -/
def find_largest (source : Option array) : Int :=
  match source with
  | none => INT_MIN
  | some s => find_largest_loop s s.length 0 INT_MIN

/-- The loop of `find_smallest`. -/
def find_smallest_loop (source : array) : Nat → Nat → Int → Int
  | 0, _, smallest => smallest
  | k + 1, i, smallest =>
    if i < source.length then
      find_smallest_loop source k (i + 1)
        (if smallest < source.getD i 0 then smallest else source.getD i 0)
    else smallest

/-- `find_smallest`: running minimum from `INT_MAX`. -/
def find_smallest (source : Option array) : Int :=
  match source with
  | none => INT_MAX
  | some s => find_smallest_loop s s.length 0 INT_MAX

/-! ## memory.c -/

/-- `new_memory_pool`: `none` stands for the `exit(EXIT_FAILURE)` path. -/
def new_memory_pool (size : Nat) : Option memory := new_array size UNALLOCATED

/-- The scan loop of `unallocated_pools` on the state `(i, count, temp)`;
`none` when the fuel runs out before the loop condition fails. -/
def unallocated_pools_loop (pool : memory) (size : Nat) :
    Nat → Nat → Nat → array → Option (Nat × array)
  | 0, _, _, _ => none
  | fuel + 1, i, count, temp =>
    if i < pool.length then
      let hole := contiguous_count pool UNALLOCATED i
      if hole ≥ size then
        unallocated_pools_loop pool size fuel
          (((i + (hole + 18446744073709551615) % 18446744073709551616)
              % 18446744073709551616 + 1) % 18446744073709551616)
          (count + 1) (temp.set count (to_int i))
      else
        unallocated_pools_loop pool size fuel ((i + 1) % 18446744073709551616) count temp
    else some (count, temp)

/-- `unallocated_pools`: outer `none` is fuel exhaustion, inner `none` is the
`NULL` result. -/
def unallocated_pools (fuel : Nat) (pool : memory) (size : Nat) : Option (Option array) :=
  match new_array pool.length 0 with
  | none => some none
  | some temp =>
    match unallocated_pools_loop pool size fuel 0 0 temp with
    | none => none
    | some (count, temp) => some (copy_array (some temp) count)

/-- `first_fit`: the first recorded address, or `-1` for a `NULL` hole list. -/
def first_fit (fuel : Nat) (pool : memory) (size : Nat) : Option Int :=
  match unallocated_pools fuel pool size with
  | none => none
  | some none => some (-1)
  | some (some holes) => some (holes.getD 0 0)

/-- The loop of `best_or_worst_fit` that fills `h_size` with the hole lengths. -/
def h_size_loop (pool : memory) (holes : array) : Nat → array → Nat → array
  | 0, h_size, _ => h_size
  | k + 1, h_size, i =>
    if i < h_size.length then
      h_size_loop pool holes k
        (h_size.set i
          (to_int (contiguous_count pool UNALLOCATED (to_size_t (holes.getD i 0)))))
        (i + 1)
    else h_size

/-- `best_or_worst_fit`: the recorded address whose hole length is the smallest
(`BEST_FIT`) or the largest (any other selector), first match in address order.
The read `holes->data[index]` is embedded for `index ≥ 0`; a negative `index`
other than `-1` would read before the array, which the embedding does not
represent. -/
def best_or_worst_fit (fuel : Nat) (pool : memory) (size : Nat) (type : Int) : Option Int :=
  match unallocated_pools fuel pool size with
  | none => none
  | some none => some (-1)
  | some (some holes) =>
    match copy_array (some holes) holes.length with
    | none => some (-1)
    | some h_size0 =>
      let h_size := h_size_loop pool holes h_size0.length h_size0 0
      let value := if type = BEST_FIT then find_smallest (some h_size)
                   else find_largest (some h_size)
      let index := to_int (array_contains (some h_size) value)
      some (if index ≠ -1 then holes.getD index.toNat 0 else -1)

/-- `allocate`: commits `[address, address + size)` to `process` when the
strategy returns an address inside the pool. -/
def allocate (fuel : Nat) (pool : memory) (process : Int) (size : Nat) (type : Int) :
    Option memory :=
  if size = 0 ∨ size > pool.length then some pool
  else
    match (if type = FIRST_FIT then first_fit fuel pool size
           else best_or_worst_fit fuel pool size type) with
    | none => none
    | some address =>
      if address ≥ 0 ∧ to_size_t address < pool.length then
        some (set_values pool process (to_size_t address)
          ((to_size_t address + size) % 18446744073709551616))
      else some pool

/-- The loop of `deallocate`. -/
def deallocate_loop (process : Int) : Nat → memory → Nat → memory
  | 0, pool, _ => pool
  | k + 1, pool, i =>
    if i < pool.length then
      deallocate_loop process k
        (if pool.getD i 0 = process then pool.set i UNALLOCATED else pool) (i + 1)
    else pool

/-- `deallocate`: every slot holding `process` becomes FREE. -/
def deallocate (pool : memory) (process : Int) : memory :=
  deallocate_loop process pool.length pool 0

/-- One pass of the inner `for` loop of `compact_memory`, from index `i`. -/
def compact_pass : Nat → memory → Nat → memory
  | 0, pool, _ => pool
  | k + 1, pool, i =>
    if i < pool.length then
      compact_pass k
        (if pool.getD (i - 1) 0 = UNALLOCATED then
          (pool.set (i - 1) (pool.getD i 0)).set i UNALLOCATED
         else pool)
        (i + 1)
    else pool

/-- The `while (!compare_array(pool, copy))` loop of `compact_memory`. -/
def compact_memory_loop : Nat → memory → Option array → Option memory
  | 0, _, _ => none
  | fuel + 1, pool, copy =>
    if compare_array (some pool) copy then some pool
    else
      compact_memory_loop fuel (compact_pass (pool.length - 1) pool 1)
        (copy_array (some pool) pool.length)

/-- `compact_memory`: passes are repeated until one leaves the pool equal to the
copy taken before it; the first comparison is against `NULL`. -/
def compact_memory (fuel : Nat) (pool : memory) : Option memory :=
  compact_memory_loop fuel pool none

/-- Pool written as text, one character per slot. -/
def ofString (s : String) : memory := s.toList.map (fun c => (c.toNat : Int))

/-! ## Specification vocabulary -/

/-- `[a, a + len)` is a hole: a maximal run of FREE slots of the pool. -/
def IsHole (pool : memory) (a len : Nat) : Prop :=
  0 < len ∧ (∀ j < len, pool[a + j]? = some UNALLOCATED) ∧
    (a = 0 ∨ pool[a - 1]? ≠ some UNALLOCATED) ∧ pool[a + len]? ≠ some UNALLOCATED

instance (pool : memory) (a len : Nat) : Decidable (IsHole pool a len) := by
  unfold IsHole; infer_instance

/-- Number of leading FREE cells of a list. -/
def free_run_from : List Int → Nat
  | [] => 0
  | x :: xs => if x = UNALLOCATED then free_run_from xs + 1 else 0

/-- Length of the run of FREE slots that starts at address `a` (`0` when slot
`a` is occupied or past the end). -/
def free_run (pool : memory) (a : Nat) : Nat := free_run_from (pool.drop a)

/-- Address `a` starts a hole of length at least `size`. -/
def hole_start (pool : memory) (size a : Nat) : Bool :=
  decide ((a = 0 ∨ pool[a - 1]? ≠ some UNALLOCATED) ∧ 0 < free_run pool a ∧
    size ≤ free_run pool a)

/-- The addresses at or above `i` that start a hole of length at least `size`,
in ascending order. -/
def hole_list_from (pool : memory) (size i : Nat) : List Nat :=
  (List.range' i (pool.length - i)).filter (hole_start pool size)

/-- All hole starts of length at least `size`, ascending. -/
def hole_list (pool : memory) (size : Nat) : List Nat := hole_list_from pool size 0

/-- The stable partition of a pool, in the words of the specification: all
occupied tags in their original order, then as many FREE slots as the pool has. -/
def stable_partition (pool : memory) : memory :=
  pool.filter (fun tag => decide (tag ≠ UNALLOCATED)) ++
    List.replicate (pool.count UNALLOCATED) UNALLOCATED

/-- The effect of one left-bubbling pass: the first FREE slot is removed and a
FREE slot is appended at the high end. -/
def shift : List Int → List Int
  | [] => []
  | x :: xs => if x = UNALLOCATED then xs ++ [UNALLOCATED] else x :: shift xs

/-- Number of FREE slots that still have an occupied slot above them. -/
def misplaced : List Int → Nat
  | [] => 0
  | x :: xs =>
    if x = UNALLOCATED ∧ ∃ y ∈ xs, y ≠ UNALLOCATED then misplaced xs + 1 else misplaced xs

/-- The two facts that pin down the length `r` of the run of `value` at `i`. -/
def IsRun (source : array) (value : Int) (i r : Nat) : Prop :=
  (∀ j < r, source[i + j]? = some value) ∧ source[i + r]? ≠ some value

/-- Loop invariant of the scan: the scan never stands strictly inside a hole
that qualifies. -/
def ScanInv (pool : memory) (size i : Nat) : Prop :=
  i = 0 ∨ pool[i - 1]? ≠ some UNALLOCATED ∨ free_run pool (i - 1) < size ∨
    pool[i]? ≠ some UNALLOCATED

/-- The address `allocate` asks its strategy for. -/
def selected (fuel : Nat) (pool : memory) (size : Nat) (type : Int) : Option Int :=
  if type = FIRST_FIT then first_fit fuel pool size else best_or_worst_fit fuel pool size type

/-- Sample pool `.A..B...` used to instantiate the theorems. -/
def sample_pool : memory := ofString ".A..B..."

/-- `n` slots owned by process `A` followed by one FREE slot. -/
def occupied_then_free (n : Nat) : memory := List.replicate n 65 ++ [UNALLOCATED]

/-- `n` FREE slots followed by one slot owned by process `A`. -/
def free_then_occupied (n : Nat) : memory := List.replicate n UNALLOCATED ++ [65]

/-- A pool of `2^31 + 1` slots whose only FREE slot is the last one. -/
def long_pool : memory := occupied_then_free 2147483648

/-- A pool of `2^31 + 1` slots whose only occupied slot is the last one. -/
def long_free_pool : memory := free_then_occupied 2147483648

/-- The `while` loop of `compact_memory` again, returning the number of passes
it runs before the comparison succeeds instead of the pool. -/
def compact_memory_passes : Nat → memory → Option array → Option Nat
  | 0, _, _ => none
  | fuel + 1, pool, copy =>
    if compare_array (some pool) copy then some 0
    else
      (compact_memory_passes fuel (compact_pass (pool.length - 1) pool 1)
        (copy_array (some pool) pool.length)).map (fun n => n + 1)

/-- The body of the scan loop of `unallocated_pools` together with its `i++`:
the state `(i, count, temp)` after one iteration entered at index `i`. -/
def unallocated_pools_body (pool : memory) (size i count : Nat) (temp : array) :
    Nat × Nat × array :=
  let hole := contiguous_count pool UNALLOCATED i
  if hole ≥ size then
    ((((i + (hole + 18446744073709551615) % 18446744073709551616)
        % 18446744073709551616 + 1) % 18446744073709551616),
      count + 1, temp.set count (to_int i))
  else ((i + 1) % 18446744073709551616, count, temp)

/-- The engine calls the command layer (`process_line`) makes on a pool. -/
inductive Command where
  | alloc (process : Int) (size : Nat) (type : Int)
  | free (process : Int)
  | compact

/-- One engine call. -/
def execute (fuel : Nat) (pool : memory) : Command → Option memory
  | Command.alloc process size type => allocate fuel pool process size type
  | Command.free process => some (deallocate pool process)
  | Command.compact => compact_memory fuel pool

/-- A sequence of engine calls, in order. -/
def execute_all (fuel : Nat) : memory → List Command → Option memory
  | pool, [] => some pool
  | pool, c :: cs =>
    match execute fuel pool c with
    | none => none
    | some pool' => execute_all fuel pool' cs

/-- A pool of `2^32 + 1` slots whose only FREE slot is the last one. -/
def very_long_pool : memory := occupied_then_free 4294967296

/-! # Theorems -/

/-! ## Integer conversions -/

theorem to_int_of_range {x : Int} (h1 : -2147483648 ≤ x) (h2 : x ≤ 2147483647) :
    to_int x = x := by
  unfold to_int; omega

theorem to_int_idem_succ (x : Int) : to_int (to_int x + 1) = to_int (x + 1) := by
  unfold to_int; omega

theorem to_int_idem (x : Int) : to_int (to_int x) = to_int x := by
  unfold to_int; omega

theorem to_size_t_of_range {x : Int} (h1 : 0 ≤ x) (h2 : x < 18446744073709551616) :
    to_size_t x = x.toNat := by
  unfold to_size_t; congr 1; omega

theorem to_size_t_natCast {n : Nat} (h : n < 18446744073709551616) :
    to_size_t (n : Int) = n := by
  unfold to_size_t; omega

theorem to_int64_natCast {n : Nat} (h : n < 9223372036854775808) :
    to_int64 (n : Int) = n := by
  unfold to_int64; omega

/-! ## Reading cells -/

theorem getD_eq_iff {l : array} {i : Nat} {v : Int} (hv : v ≠ 0) :
    l.getD i 0 = v ↔ l[i]? = some v := by
  rw [List.getD_eq_getElem?_getD]
  cases h : l[i]? with
  | none => simp; exact fun h => hv h.symm
  | some x => simp

/-! ## `set_values` -/

theorem set_values_loop_length (value : Int) (k : Nat) (source : array) (start : Nat) :
    (set_values_loop value k source start).length = source.length := by
  induction k generalizing source start with
  | zero => rfl
  | succ k ih => simp [set_values_loop, ih]

theorem set_values_loop_getElem? (value : Int) (k : Nat) (source : array) (start j : Nat) :
    (set_values_loop value k source start)[j]? =
      if start ≤ j ∧ j < start + k ∧ j < source.length then some value else source[j]? := by
  induction k generalizing source start with
  | zero =>
    have : ¬ (start ≤ j ∧ j < start ∧ j < source.length) := by omega
    simp only [set_values_loop, Nat.add_zero, if_neg this]
  | succ k ih =>
    simp only [set_values_loop, ih, List.length_set, List.getElem?_set]
    by_cases h1 : start = j
    · subst h1
      by_cases h2 : start < source.length
      · simp [h2]
      · have h5 : source.length ≤ start := by omega
        simp [h2, List.getElem?_eq_none h5]
    · by_cases h3 : start + 1 ≤ j ∧ j < start + 1 + k ∧ j < source.length
      · have h4 : start ≤ j ∧ j < start + (k + 1) ∧ j < source.length := by omega
        simp [h3, h4]
      · have h4 : ¬ (start ≤ j ∧ j < start + (k + 1) ∧ j < source.length) := by omega
        simp [h3, h4, h1]

theorem set_values_length (source : array) (value : Int) (start end_ : Nat) :
    (set_values source value start end_).length = source.length :=
  set_values_loop_length _ _ _ _

theorem set_values_getElem? (source : array) (value : Int) (start end_ j : Nat) :
    (set_values source value start end_)[j]? =
      if start ≤ j ∧ j < end_ ∧ j < source.length then some value else source[j]? := by
  unfold set_values
  rw [set_values_loop_getElem?]
  by_cases h : start ≤ j ∧ j < end_ ∧ j < source.length
  · have h' : start ≤ j ∧ j < start + (end_ - start) ∧ j < source.length := by omega
    simp [h, h']
  · have h' : ¬ (start ≤ j ∧ j < start + (end_ - start) ∧ j < source.length) := by omega
    simp [h, h']

theorem new_array_eq {n : Nat} (hn : n ≠ 0) (fill : Int) :
    new_array n fill = some (List.replicate n fill) := by
  unfold new_array
  rw [if_neg hn]
  congr 1
  apply List.ext_getElem?
  intro j
  rw [set_values_getElem?]
  by_cases h : j < n
  · simp [h, List.getElem?_replicate]
  · simp [h, List.getElem?_replicate]

/-! ## `copy_array` -/

theorem copy_array_loop_length (source : array) (k : Nat) (copy : array) (i : Nat) :
    (copy_array_loop source k copy i).length = copy.length := by
  induction k generalizing copy i with
  | zero => rfl
  | succ k ih =>
    simp only [copy_array_loop]
    split
    · rw [ih]; simp
    · rfl

theorem copy_array_loop_getElem? (source : array) (k : Nat) (copy : array) (i j : Nat)
    (hk : copy.length ≤ i + k) :
    (copy_array_loop source k copy i)[j]? =
      if i ≤ j ∧ j < copy.length ∧ j < source.length then source[j]? else copy[j]? := by
  induction k generalizing copy i with
  | zero =>
    simp only [copy_array_loop]
    have : ¬ (i ≤ j ∧ j < copy.length ∧ j < source.length) := by omega
    simp [this]
  | succ k ih =>
    simp only [copy_array_loop]
    split
    · rename_i hi
      rw [ih _ _ (by simp; omega)]
      simp only [List.length_set, List.getElem?_set]
      by_cases h1 : i = j
      · subst h1
        have : ¬ (i + 1 ≤ i ∧ i < copy.length ∧ i < source.length) := by omega
        simp [this, hi.1, hi.2, List.getD_eq_getElem?_getD, List.getElem?_eq_getElem hi.2]
      · by_cases h2 : i + 1 ≤ j ∧ j < copy.length ∧ j < source.length
        · have : i ≤ j ∧ j < copy.length ∧ j < source.length := by omega
          simp [h2, this]
        · have : ¬ (i ≤ j ∧ j < copy.length ∧ j < source.length) := by omega
          simp [h2, this, h1]
    · rename_i hi
      by_cases h2 : i ≤ j ∧ j < copy.length ∧ j < source.length
      · exfalso
        -- the loop stopped at `i` because the source ran out
        omega
      · simp [h2]

theorem copy_array_take {src : array} {n : Nat} (hn : n ≠ 0) (hle : n ≤ src.length) :
    copy_array (some src) n = some (src.take n) := by
  have hs : ¬ (src.length = 0 ∨ n = 0) := by omega
  simp only [copy_array, if_neg hs, new_array_eq hn]
  congr 1
  apply List.ext_getElem?
  intro j
  rw [copy_array_loop_getElem? _ _ _ _ _ (by simp)]
  simp only [List.length_replicate, List.getElem?_take]
  by_cases h : j < n
  · have : 0 ≤ j ∧ j < n ∧ j < src.length := by omega
    simp [this, h]
  · have : ¬ (0 ≤ j ∧ j < n ∧ j < src.length) := by omega
    simp [this, h, List.getElem?_replicate]

theorem copy_array_self {src : array} (h : src ≠ []) :
    copy_array (some src) src.length = some src := by
  have : src.length ≠ 0 := by simpa using h
  rw [copy_array_take this (le_refl _), List.take_length]

/-! ## `deallocate` -/

theorem deallocate_loop_length (process : Int) (k : Nat) (pool : memory) (i : Nat) :
    (deallocate_loop process k pool i).length = pool.length := by
  induction k generalizing pool i with
  | zero => rfl
  | succ k ih =>
    simp only [deallocate_loop]
    split
    · rw [ih]; split <;> simp
    · rfl

theorem deallocate_loop_getElem? (process : Int) (k : Nat) (pool : memory) (i j : Nat)
    (hk : pool.length ≤ i + k) :
    (deallocate_loop process k pool i)[j]? =
      if i ≤ j then (pool[j]?).map (fun x => if x = process then UNALLOCATED else x)
      else pool[j]? := by
  induction k generalizing pool i with
  | zero =>
    simp only [deallocate_loop]
    split
    · rw [List.getElem?_eq_none (by omega)]; rfl
    · rfl
  | succ k ih =>
    simp only [deallocate_loop]
    split
    · rename_i hi
      have hlen : (if pool.getD i 0 = process then pool.set i UNALLOCATED else pool).length
          = pool.length := by split <;> simp
      rw [ih _ _ (by rw [hlen]; omega)]
      by_cases h1 : i = j
      · subst h1
        have : ¬ (i + 1 ≤ i) := by omega
        simp only [this, if_false, le_refl, if_true]
        rw [List.getD_eq_getElem?_getD, List.getElem?_eq_getElem hi]
        simp only [Option.getD_some, Option.map_some']
        split
        · simp [List.getElem?_set, hi]
        · rw [List.getElem?_eq_getElem hi]
      · by_cases h2 : i + 1 ≤ j
        · have h3 : i ≤ j := by omega
          simp only [h2, h3, if_true]
          split
          · simp [List.getElem?_set, h1]
          · rfl
        · have h3 : ¬ i ≤ j := by omega
          simp only [h2, h3, if_false]
          split
          · simp [List.getElem?_set, h1]
          · rfl
    · rename_i hi
      split
      · rw [List.getElem?_eq_none (by omega)]; rfl
      · rfl

theorem deallocate_length (pool : memory) (process : Int) :
    (deallocate pool process).length = pool.length :=
  deallocate_loop_length _ _ _ _

theorem deallocate_getElem? (pool : memory) (process : Int) (j : Nat) :
    (deallocate pool process)[j]? =
      (pool[j]?).map (fun x => if x = process then UNALLOCATED else x) := by
  unfold deallocate
  rw [deallocate_loop_getElem? _ _ _ _ _ (by omega)]
  simp

theorem deallocate_eq_map (pool : memory) (process : Int) :
    deallocate pool process = pool.map (fun x => if x = process then UNALLOCATED else x) := by
  apply List.ext_getElem?
  intro j
  rw [deallocate_getElem?, List.getElem?_map]

theorem getD_eq_iff_of_lt {l : array} {i : Nat} (v : Int) (h : i < l.length) :
    l.getD i 0 = v ↔ l[i]? = some v := by
  rw [List.getD_eq_getElem?_getD, List.getElem?_eq_getElem h]
  simp

/-! ## Runs of a value -/

theorem IsRun.unique {source : array} {value : Int} {i r1 r2 : Nat}
    (h1 : IsRun source value i r1) (h2 : IsRun source value i r2) : r1 = r2 := by
  rcases Nat.lt_trichotomy r1 r2 with h | h | h
  · exact absurd (h2.1 r1 h) h1.2
  · exact h
  · exact absurd (h1.1 r2 h) h2.2

theorem IsRun.zero_or_within {source : array} {value : Int} {i r : Nat}
    (h : IsRun source value i r) : r = 0 ∨ i + r ≤ source.length := by
  rcases Nat.eq_zero_or_pos r with h0 | h0
  · exact Or.inl h0
  · right
    have := h.1 (r - 1) (by omega)
    have hlt : i + (r - 1) < source.length := by
      by_contra hc
      rw [List.getElem?_eq_none (by omega)] at this
      exact Option.noConfusion this
    omega

theorem contiguous_count_loop_spec (source : array) (value : Int) (k i : Nat) (c : Int)
    (hk : source.length ≤ i + k) :
    ∃ r : Nat, IsRun source value i r ∧
      contiguous_count_loop source value k i (to_int c) = to_int (c + r) := by
  induction k generalizing i c with
  | zero =>
    refine ⟨0, ⟨fun j hj => absurd hj (Nat.not_lt_zero j), ?_⟩, by simp [contiguous_count_loop]⟩
    rw [List.getElem?_eq_none (by omega)]
    exact fun h => Option.noConfusion h
  | succ k ih =>
    simp only [contiguous_count_loop]
    by_cases hi : i < source.length
    · rw [if_pos hi]
      by_cases hv : source.getD i 0 = value
      · rw [if_pos hv, to_int_idem_succ]
        obtain ⟨r, hr, heq⟩ := ih (i + 1) (c + 1) (by omega)
        refine ⟨r + 1, ⟨?_, ?_⟩, ?_⟩
        · intro j hj
          rcases Nat.eq_zero_or_pos j with h0 | h0
          · subst h0
            exact (getD_eq_iff_of_lt value hi).1 hv
          · have := hr.1 (j - 1) (by omega)
            have e : i + 1 + (j - 1) = i + j := by omega
            rwa [e] at this
        · have := hr.2
          have e : i + 1 + r = i + (r + 1) := by omega
          rwa [e] at this
        · rw [heq]
          congr 1
          push_cast
          ring
      · rw [if_neg hv]
        refine ⟨0, ⟨fun j hj => absurd hj (Nat.not_lt_zero j), ?_⟩, by simp⟩
        intro h
        exact hv ((getD_eq_iff_of_lt value hi).2 h)
    · rw [if_neg hi]
      refine ⟨0, ⟨fun j hj => absurd hj (Nat.not_lt_zero j), ?_⟩, by simp⟩
      rw [List.getElem?_eq_none (by omega)]
      exact fun h => Option.noConfusion h

/-- Whatever the pool length, `contiguous_count` is the true run length pushed
through the `int` counter and the `size_t` result type. -/
theorem contiguous_count_wrap (source : array) (value : Int) (i : Nat) :
    ∃ r : Nat, IsRun source value i r ∧
      contiguous_count source value i = to_size_t (to_int r) := by
  obtain ⟨r, hr, heq⟩ := contiguous_count_loop_spec source value (source.length - i) i 0
    (by omega)
  refine ⟨r, hr, ?_⟩
  unfold contiguous_count
  have h0 : to_int 0 = 0 := by decide
  rw [h0] at heq
  rw [heq]
  simp

theorem contiguous_count_isRun {source : array} (value : Int) (i : Nat)
    (hn : source.length ≤ 2147483647) :
    IsRun source value i (contiguous_count source value i) := by
  obtain ⟨r, hr, heq⟩ := contiguous_count_wrap source value i
  have hle := hr.zero_or_within
  have h1 : to_int (r : Int) = r := to_int_of_range (by omega) (by omega)
  have h2 : to_size_t (r : Int) = r := to_size_t_natCast (by omega)
  rw [heq, h1, h2]
  exact hr

/-! ## `free_run` -/

theorem free_run_from_isRun (l : List Int) : IsRun l UNALLOCATED 0 (free_run_from l) := by
  induction l with
  | nil =>
    refine ⟨fun j hj => absurd hj (Nat.not_lt_zero j), ?_⟩
    simp
  | cons x xs ih =>
    simp only [free_run_from]
    by_cases hx : x = UNALLOCATED
    · rw [if_pos hx]
      refine ⟨?_, ?_⟩
      · intro j hj
        rcases Nat.eq_zero_or_pos j with h0 | h0
        · subst h0; simp [hx]
        · obtain ⟨j', rfl⟩ : ∃ j', j = j' + 1 := ⟨j - 1, by omega⟩
          have := ih.1 j' (by omega)
          simpa using this
      · have := ih.2
        simpa using this
    · rw [if_neg hx]
      refine ⟨fun j hj => absurd hj (Nat.not_lt_zero j), ?_⟩
      simpa using hx

theorem free_run_isRun (pool : memory) (a : Nat) :
    IsRun pool UNALLOCATED a (free_run pool a) := by
  have h := free_run_from_isRun (pool.drop a)
  unfold free_run
  refine ⟨?_, ?_⟩
  · intro j hj
    have := h.1 j hj
    simpa [List.getElem?_drop] using this
  · have := h.2
    simpa [List.getElem?_drop] using this

theorem contiguous_count_eq_free_run {pool : memory} (a : Nat)
    (hn : pool.length ≤ 2147483647) :
    contiguous_count pool UNALLOCATED a = free_run pool a :=
  (contiguous_count_isRun UNALLOCATED a hn).unique (free_run_isRun pool a)

theorem free_run_le (pool : memory) (a : Nat) : a + free_run pool a ≤ max a pool.length := by
  rcases (free_run_isRun pool a).zero_or_within with h | h
  · omega
  · omega

theorem free_run_pos_iff (pool : memory) (a : Nat) :
    0 < free_run pool a ↔ pool[a]? = some UNALLOCATED := by
  have h := free_run_isRun pool a
  constructor
  · intro hp
    simpa using h.1 0 hp
  · intro hf
    by_contra hc
    have h0 : free_run pool a = 0 := by omega
    have := h.2
    rw [h0] at this
    exact this (by simpa using hf)

theorem isHole_iff (pool : memory) (a len : Nat) :
    IsHole pool a len ↔
      (a = 0 ∨ pool[a - 1]? ≠ some UNALLOCATED) ∧ 0 < free_run pool a ∧
        len = free_run pool a := by
  constructor
  · rintro ⟨hpos, hfree, hstart, hend⟩
    have : len = free_run pool a :=
      IsRun.unique (⟨hfree, hend⟩ : IsRun pool UNALLOCATED a len) (free_run_isRun pool a)
    exact ⟨hstart, this ▸ hpos, this⟩
  · rintro ⟨hstart, hpos, rfl⟩
    exact ⟨hpos, (free_run_isRun pool a).1, hstart, (free_run_isRun pool a).2⟩

theorem hole_start_iff (pool : memory) (size a : Nat) :
    hole_start pool size a = true ↔ ∃ len, IsHole pool a len ∧ size ≤ len := by
  unfold hole_start
  rw [decide_eq_true_iff]
  constructor
  · rintro ⟨h1, h2, h3⟩
    exact ⟨free_run pool a, (isHole_iff pool a _).2 ⟨h1, h2, rfl⟩, h3⟩
  · rintro ⟨len, hh, hs⟩
    obtain ⟨h1, h2, rfl⟩ := (isHole_iff pool a len).1 hh
    exact ⟨h1, h2, hs⟩

/-! ## The scan of `unallocated_pools` -/

theorem filter_range'_skip (Q : Nat → Bool) (d a m : Nat) (hd : d ≤ m)
    (hq : ∀ x, a ≤ x → x < a + d → Q x = false) :
    (List.range' a m).filter Q = (List.range' (a + d) (m - d)).filter Q := by
  induction d generalizing a m with
  | zero => simp
  | succ d ih =>
    obtain ⟨m', rfl⟩ : ∃ m', m = m' + 1 := ⟨m - 1, by omega⟩
    rw [List.range'_succ, List.filter_cons_of_neg (by simp [hq a (le_refl _) (by omega)])]
    rw [ih (a + 1) m' (by omega) (fun x h1 h2 => hq x (by omega) (by omega))]
    have e1 : a + 1 + d = a + (d + 1) := by omega
    have e2 : m' + 1 - (d + 1) = m' - d := by omega
    rw [e1, e2]

theorem hole_list_from_of_ge (pool : memory) (size i : Nat) (h : pool.length ≤ i) :
    hole_list_from pool size i = [] := by
  unfold hole_list_from
  have : pool.length - i = 0 := by omega
  rw [this]; rfl

theorem hole_list_from_skip (pool : memory) (size i : Nat) (hi : i < pool.length)
    (h : hole_start pool size i = false) :
    hole_list_from pool size i = hole_list_from pool size (i + 1) := by
  unfold hole_list_from
  rw [filter_range'_skip _ 1 i _ (by omega) (fun x h1 h2 => by
    have : x = i := by omega
    rw [this]; exact h)]
  rfl

theorem hole_list_from_take (pool : memory) (size i : Nat) (hi : i < pool.length)
    (h : hole_start pool size i = true) :
    hole_list_from pool size i = i :: hole_list_from pool size (i + free_run pool i) := by
  have hrun := free_run_isRun pool i
  have hpos : 0 < free_run pool i := by
    unfold hole_start at h
    rw [decide_eq_true_iff] at h
    exact h.2.1
  have hle : i + free_run pool i ≤ pool.length := by
    rcases hrun.zero_or_within with h0 | h0 <;> omega
  unfold hole_list_from
  obtain ⟨m', hm'⟩ : ∃ m', pool.length - i = m' + 1 := ⟨pool.length - i - 1, by omega⟩
  rw [hm', List.range'_succ, List.filter_cons_of_pos h]
  congr 1
  rw [filter_range'_skip _ (free_run pool i - 1) (i + 1) m' (by omega)]
  · have e1 : i + 1 + (free_run pool i - 1) = i + free_run pool i := by omega
    have e2 : m' - (free_run pool i - 1) = pool.length - (i + free_run pool i) := by omega
    rw [e1, e2]
  · intro x h1 h2
    unfold hole_start
    rw [decide_eq_false_iff_not]
    rintro ⟨hs, -, -⟩
    rcases hs with hs | hs
    · omega
    · apply hs
      have := hrun.1 (x - 1 - i) (by omega)
      have e : i + (x - 1 - i) = x - 1 := by omega
      rwa [e] at this

theorem take_succ_set {l : List Int} {count : Nat} (x : Int) (h : count < l.length) :
    (l.set count x).take (count + 1) = l.take count ++ [x] := by
  apply List.ext_getElem?
  intro j
  simp only [List.getElem?_take, List.getElem?_set, List.getElem?_append, List.length_take]
  by_cases h1 : j < count
  · have h2 : j < count + 1 := by omega
    have h3 : j < min count l.length := by omega
    have h4 : count ≠ j := by omega
    simp [h1, h2, h3, h4]
  · by_cases h2 : j = count
    · subst h2
      have h3 : ¬ j < min j l.length := by omega
      have h4 : min j l.length = j := by omega
      simp [h, h3, h4]
    · have h3 : ¬ j < count + 1 := by omega
      have h4 : ¬ j < min count l.length := by omega
      have h5 : j - min count l.length ≠ 0 := by omega
      simp [h3, h4]
      cases hj : j - min count l.length with
      | zero => omega
      | succ n => simp

theorem take_set_of_le {l : List Int} {count m : Nat} (x : Int) (h : m ≤ count) :
    (l.set count x).take m = l.take m := by
  apply List.ext_getElem?
  intro j
  simp only [List.getElem?_take, List.getElem?_set]
  by_cases h1 : j < m
  · have : count ≠ j := by omega
    simp [h1, this]
  · simp [h1]

/-- The index update `i += hole - 1; i++` in `size_t` arithmetic, when nothing wraps. -/
theorem size_t_advance {i r : Nat} (h3 : 0 < r) (h1 : i + r < 18446744073709551616) :
    ((i + (r + 18446744073709551615) % 18446744073709551616)
        % 18446744073709551616 + 1) % 18446744073709551616 = i + r := by
  have e1 : (r + 18446744073709551615) % 18446744073709551616 = r - 1 := by
    have : r + 18446744073709551615 = (r - 1) + 1 * 18446744073709551616 := by omega
    rw [this, Nat.add_mul_mod_self_right]
    exact Nat.mod_eq_of_lt (by omega)
  rw [e1, Nat.mod_eq_of_lt (by omega), Nat.mod_eq_of_lt (by omega)]
  omega

theorem unallocated_pools_loop_spec (pool : memory) (size : Nat) (hsize : 1 ≤ size)
    (hn : pool.length ≤ 2147483647) (fuel : Nat) :
    ∀ (i count : Nat) (temp : array), pool.length - i < fuel → count ≤ i →
      temp.length = pool.length → ScanInv pool size i →
      ∃ temp', unallocated_pools_loop pool size fuel i count temp =
          some (count + (hole_list_from pool size i).length, temp') ∧
        temp'.length = pool.length ∧
        temp'.take (count + (hole_list_from pool size i).length) =
          temp.take count ++ (hole_list_from pool size i).map Int.ofNat := by
  induction fuel with
  | zero => intro i count temp h; omega
  | succ fuel ih =>
    intro i count temp hfuel hcount htemp hinv
    simp only [unallocated_pools_loop]
    by_cases hi : i < pool.length
    · rw [if_pos hi, contiguous_count_eq_free_run i hn]
      have hrun := free_run_isRun pool i
      by_cases hq : free_run pool i ≥ size
      · rw [if_pos hq]
        have hpos : 0 < free_run pool i := by omega
        have hle : i + free_run pool i ≤ pool.length := by
          rcases hrun.zero_or_within with h0 | h0 <;> omega
        have hfree : pool[i]? = some UNALLOCATED := (free_run_pos_iff pool i).1 hpos
        have hstart : i = 0 ∨ pool[i - 1]? ≠ some UNALLOCATED := by
          rcases hinv with h | h | h | h
          · exact Or.inl h
          · exact Or.inr h
          · by_cases h0 : i = 0
            · exact Or.inl h0
            · right
              intro hprev
              have hrun' := free_run_isRun pool (i - 1)
              have hp : 0 < free_run pool (i - 1) := (free_run_pos_iff pool (i - 1)).2 hprev
              apply hrun'.2
              have := hrun.1 (free_run pool (i - 1) - 1) (by omega)
              have e : i + (free_run pool (i - 1) - 1) = i - 1 + free_run pool (i - 1) := by
                omega
              rwa [e] at this
          · exact absurd hfree h
        have hhs : hole_start pool size i = true := by
          unfold hole_start
          rw [decide_eq_true_iff]
          exact ⟨hstart, hpos, hq⟩
        have hti : to_int (i : Int) = i := to_int_of_range (by omega) (by omega)
        rw [size_t_advance hpos (by omega), hti, hole_list_from_take pool size i hi hhs]
        obtain ⟨temp', h1, h2, h3⟩ := ih (i + free_run pool i) (count + 1)
          (temp.set count (i : Int)) (by omega) (by omega) (by simpa using htemp)
          (Or.inr (Or.inr (Or.inr hrun.2)))
        refine ⟨temp', ?_, h2, ?_⟩
        · rw [h1]
          simp only [List.length_cons]
          rw [Nat.add_assoc, Nat.add_comm 1]
        · simp only [List.length_cons, List.map_cons]
          have e : count + ((hole_list_from pool size (i + free_run pool i)).length + 1)
              = count + 1 + (hole_list_from pool size (i + free_run pool i)).length := by omega
          rw [e, h3, take_succ_set _ (by omega)]
          simp
      · rw [if_neg hq]
        have hhs : hole_start pool size i = false := by
          unfold hole_start
          rw [decide_eq_false_iff_not]
          rintro ⟨-, -, h⟩
          exact hq h
        rw [Nat.mod_eq_of_lt (by omega : i + 1 < 18446744073709551616),
          hole_list_from_skip pool size i hi hhs]
        have e : i + 1 - 1 = i := by omega
        exact ih (i + 1) count temp (by omega) (by omega) htemp
          (Or.inr (Or.inr (Or.inl (by rw [e]; omega))))
    · rw [if_neg hi, hole_list_from_of_ge pool size i (by omega)]
      exact ⟨temp, by simp, htemp, by simp⟩

/-- With the pool no longer than `INT_MAX`, a request of at least one slot and
fuel beyond the pool length, `unallocated_pools` returns exactly the ascending
list of qualifying hole starts (`NULL` when there is none). -/
theorem unallocated_pools_eq (pool : memory) (size fuel : Nat) (hsize : 1 ≤ size)
    (hn : pool.length ≤ 2147483647) (hfuel : pool.length < fuel) :
    unallocated_pools fuel pool size =
      some (if hole_list pool size = [] then none
            else some ((hole_list pool size).map Int.ofNat)) := by
  unfold unallocated_pools
  by_cases h0 : pool.length = 0
  · have : hole_list pool size = [] := hole_list_from_of_ge pool size 0 (by omega)
    simp [new_array, h0, this]
  · rw [new_array_eq h0]
    obtain ⟨temp', h1, h2, h3⟩ := unallocated_pools_loop_spec pool size hsize hn fuel 0 0
      (List.replicate pool.length 0) (by omega) (le_refl _) (by simp) (Or.inl rfl)
    simp only [Nat.zero_add, List.take_zero, List.nil_append] at h1 h3
    simp only [h1]
    have hlen : (hole_list_from pool size 0).length ≤ pool.length := by
      unfold hole_list_from
      calc _ ≤ (List.range' 0 (pool.length - 0)).length := List.length_filter_le _ _
        _ = pool.length := by simp
    unfold hole_list
    by_cases he : hole_list_from pool size 0 = []
    · simp [he, copy_array]
    · rw [if_neg he]
      have hne : (hole_list_from pool size 0).length ≠ 0 := by simpa using he
      rw [copy_array_take hne (by omega), h3]

/-! ## The list of qualifying holes -/

theorem mem_hole_list (pool : memory) (size a : Nat) :
    a ∈ hole_list pool size ↔ ∃ len, IsHole pool a len ∧ size ≤ len := by
  unfold hole_list hole_list_from
  rw [List.mem_filter, hole_start_iff]
  constructor
  · exact fun h => h.2
  · rintro ⟨len, hh, hs⟩
    refine ⟨?_, len, hh, hs⟩
    rw [List.mem_range']
    have h0 := hh.2.1 0 hh.1
    have hlt : a < pool.length := by
      by_contra hc
      rw [List.getElem?_eq_none (by omega)] at h0
      exact Option.noConfusion h0
    exact ⟨a, by omega, by omega⟩

theorem hole_list_sorted (pool : memory) (size : Nat) :
    (hole_list pool size).Pairwise (fun a b => a < b) := by
  unfold hole_list hole_list_from
  exact List.Pairwise.filter _ (List.pairwise_lt_range' 0 _ 1 (by decide))

theorem hole_list_lt (pool : memory) (size : Nat) {a : Nat} (h : a ∈ hole_list pool size) :
    a < pool.length := by
  unfold hole_list hole_list_from at h
  have := (List.mem_filter.1 h).1
  rw [List.mem_range'] at this
  obtain ⟨i, hi, rfl⟩ := this
  omega

theorem hole_list_length_le (pool : memory) (size : Nat) :
    (hole_list pool size).length ≤ pool.length := by
  unfold hole_list hole_list_from
  calc _ ≤ (List.range' 0 (pool.length - 0)).length := List.length_filter_le _ _
    _ = pool.length := by simp

/-! ## `first_fit` -/

theorem first_fit_eq (pool : memory) (size fuel : Nat) (hsize : 1 ≤ size)
    (hn : pool.length ≤ 2147483647) (hfuel : pool.length < fuel) :
    first_fit fuel pool size =
      some (match hole_list pool size with
            | [] => -1
            | a :: _ => (a : Int)) := by
  unfold first_fit
  rw [unallocated_pools_eq pool size fuel hsize hn hfuel]
  cases h : hole_list pool size with
  | nil => simp
  | cons a l => simp

/-! ## The loops of `best_or_worst_fit` -/

theorem h_size_loop_length (pool : memory) (holes : array) (k : Nat) (h : array) (i : Nat) :
    (h_size_loop pool holes k h i).length = h.length := by
  induction k generalizing h i with
  | zero => rfl
  | succ k ih =>
    simp only [h_size_loop]
    split
    · rw [ih]; simp
    · rfl

theorem h_size_loop_getElem? (pool : memory) (holes : array) (k : Nat) (h : array)
    (i j : Nat) (hk : h.length ≤ i + k) :
    (h_size_loop pool holes k h i)[j]? =
      if i ≤ j ∧ j < h.length then
        some (to_int (contiguous_count pool UNALLOCATED (to_size_t (holes.getD j 0))))
      else h[j]? := by
  induction k generalizing h i with
  | zero =>
    have : ¬ (i ≤ j ∧ j < h.length) := by omega
    simp only [h_size_loop, if_neg this]
  | succ k ih =>
    simp only [h_size_loop]
    by_cases hi : i < h.length
    · rw [if_pos hi, ih _ _ (by simp; omega)]
      simp only [List.length_set, List.getElem?_set]
      by_cases h1 : i = j
      · subst h1
        have h2 : ¬ (i + 1 ≤ i ∧ i < h.length) := by omega
        have h3 : i ≤ i ∧ i < h.length := ⟨le_refl _, hi⟩
        simp [h2, h3, hi]
      · by_cases h2 : i + 1 ≤ j ∧ j < h.length
        · have h3 : i ≤ j ∧ j < h.length := by omega
          simp [h2, h3]
        · have h3 : ¬ (i ≤ j ∧ j < h.length) := by omega
          simp [h2, h3, h1]
    · rw [if_neg hi]
      have : ¬ (i ≤ j ∧ j < h.length) := by omega
      rw [if_neg this]

theorem find_smallest_loop_spec (s : array) (k i : Nat) (acc : Int)
    (hk : s.length ≤ i + k) :
    find_smallest_loop s k i acc ≤ acc ∧
      (∀ j x, i ≤ j → s[j]? = some x → find_smallest_loop s k i acc ≤ x) ∧
      (find_smallest_loop s k i acc = acc ∨
        ∃ j, i ≤ j ∧ s[j]? = some (find_smallest_loop s k i acc)) := by
  induction k generalizing i acc with
  | zero =>
    refine ⟨le_refl _, ?_, Or.inl rfl⟩
    intro j x hj hx
    rw [List.getElem?_eq_none (by omega)] at hx
    exact Option.noConfusion hx
  | succ k ih =>
    simp only [find_smallest_loop]
    by_cases hi : i < s.length
    · rw [if_pos hi]
      have hget : s[i]? = some (s.getD i 0) := by
        rw [List.getD_eq_getElem?_getD, List.getElem?_eq_getElem hi]; rfl
      obtain ⟨h1, h2, h3⟩ := ih (i + 1) (if acc < s.getD i 0 then acc else s.getD i 0)
        (by omega)
      have hm1 : (if acc < s.getD i 0 then acc else s.getD i 0) ≤ acc := by
        split <;> omega
      have hm2 : (if acc < s.getD i 0 then acc else s.getD i 0) ≤ s.getD i 0 := by
        split <;> omega
      refine ⟨le_trans h1 hm1, ?_, ?_⟩
      · intro j x hj hx
        by_cases hij : j = i
        · subst hij
          rw [hget] at hx
          cases hx
          exact le_trans h1 hm2
        · exact h2 j x (by omega) hx
      · rcases h3 with h3 | ⟨j, hj, hx⟩
        · by_cases hlt : acc < s.getD i 0
          · left; rw [h3, if_pos hlt]
          · right
            rw [if_neg hlt] at h3
            exact ⟨i, le_refl _, by rw [if_neg hlt, h3]; exact hget⟩
        · exact Or.inr ⟨j, by omega, hx⟩
    · rw [if_neg hi]
      refine ⟨le_refl _, ?_, Or.inl rfl⟩
      intro j x hj hx
      rw [List.getElem?_eq_none (by omega)] at hx
      exact Option.noConfusion hx

theorem find_largest_loop_spec (s : array) (k i : Nat) (acc : Int)
    (hk : s.length ≤ i + k) :
    acc ≤ find_largest_loop s k i acc ∧
      (∀ j x, i ≤ j → s[j]? = some x → x ≤ find_largest_loop s k i acc) ∧
      (find_largest_loop s k i acc = acc ∨
        ∃ j, i ≤ j ∧ s[j]? = some (find_largest_loop s k i acc)) := by
  induction k generalizing i acc with
  | zero =>
    refine ⟨le_refl _, ?_, Or.inl rfl⟩
    intro j x hj hx
    rw [List.getElem?_eq_none (by omega)] at hx
    exact Option.noConfusion hx
  | succ k ih =>
    simp only [find_largest_loop]
    by_cases hi : i < s.length
    · rw [if_pos hi]
      have hget : s[i]? = some (s.getD i 0) := by
        rw [List.getD_eq_getElem?_getD, List.getElem?_eq_getElem hi]; rfl
      obtain ⟨h1, h2, h3⟩ := ih (i + 1) (if acc > s.getD i 0 then acc else s.getD i 0)
        (by omega)
      have hm1 : acc ≤ (if acc > s.getD i 0 then acc else s.getD i 0) := by
        split <;> omega
      have hm2 : s.getD i 0 ≤ (if acc > s.getD i 0 then acc else s.getD i 0) := by
        split <;> omega
      refine ⟨le_trans hm1 h1, ?_, ?_⟩
      · intro j x hj hx
        by_cases hij : j = i
        · subst hij
          rw [hget] at hx
          cases hx
          exact le_trans hm2 h1
        · exact h2 j x (by omega) hx
      · rcases h3 with h3 | ⟨j, hj, hx⟩
        · by_cases hlt : acc > s.getD i 0
          · left; rw [h3, if_pos hlt]
          · right
            rw [if_neg hlt] at h3
            exact ⟨i, le_refl _, by rw [if_neg hlt, h3]; exact hget⟩
        · exact Or.inr ⟨j, by omega, hx⟩
    · rw [if_neg hi]
      refine ⟨le_refl _, ?_, Or.inl rfl⟩
      intro j x hj hx
      rw [List.getElem?_eq_none (by omega)] at hx
      exact Option.noConfusion hx

theorem array_contains_loop_spec (s : array) (value : Int) (k i : Nat)
    (hk : s.length ≤ i + k) (hlen : s.length < 9223372036854775808)
    (hex : ∃ j, i ≤ j ∧ s[j]? = some value) :
    ∃ idx : Nat, i ≤ idx ∧ array_contains_loop s value k i = (idx : Int) ∧
      s[idx]? = some value ∧ ∀ j, i ≤ j → j < idx → s[j]? ≠ some value := by
  induction k generalizing i with
  | zero =>
    obtain ⟨j, hj, hx⟩ := hex
    rw [List.getElem?_eq_none (by omega)] at hx
    exact Option.noConfusion hx
  | succ k ih =>
    obtain ⟨j, hj, hx⟩ := hex
    have hjlt : j < s.length := by
      by_contra hc
      rw [List.getElem?_eq_none (by omega)] at hx
      exact Option.noConfusion hx
    have hi : i < s.length := by omega
    have hcast : (i : Int) < to_int64 s.length := by
      rw [to_int64_natCast hlen]; exact_mod_cast hi
    simp only [array_contains_loop, if_pos hcast]
    by_cases hv : s.getD i 0 = value
    · rw [if_pos hv]
      refine ⟨i, le_refl _, rfl, (getD_eq_iff_of_lt value hi).1 hv, ?_⟩
      intro j h1 h2; omega
    · rw [if_neg hv]
      have hne : s[i]? ≠ some value := fun h => hv ((getD_eq_iff_of_lt value hi).2 h)
      have hji : j ≠ i := by
        rintro rfl; exact hne hx
      obtain ⟨idx, h1, h2, h3, h4⟩ := ih (i + 1) (by omega) ⟨j, by omega, hx⟩
      refine ⟨idx, by omega, h2, h3, ?_⟩
      intro j' hj1 hj2
      by_cases e : j' = i
      · rw [e]; exact hne
      · exact h4 j' (by omega) hj2

/-! ## `best_or_worst_fit` -/

theorem free_run_le_length (pool : memory) (a : Nat) : free_run pool a ≤ pool.length := by
  rcases (free_run_isRun pool a).zero_or_within with h | h <;> omega

/-- The `h_size` array computed by `best_or_worst_fit`: the hole lengths. -/
theorem h_size_eq (pool : memory) (L : List Nat) (hn : pool.length ≤ 2147483647)
    (hL : ∀ a ∈ L, a < pool.length) :
    h_size_loop pool (L.map Int.ofNat) (L.map Int.ofNat).length (L.map Int.ofNat) 0 =
      L.map (fun a => (free_run pool a : Int)) := by
  apply List.ext_getElem?
  intro j
  rw [h_size_loop_getElem? _ _ _ _ _ _ (by omega)]
  by_cases hj : j < L.length
  · have h1 : 0 ≤ j ∧ j < (L.map Int.ofNat).length := by simpa using hj
    rw [if_pos h1]
    have hget : (L.map Int.ofNat).getD j 0 = (L[j] : Int) := by
      rw [List.getD_eq_getElem?_getD, List.getElem?_map, List.getElem?_eq_getElem hj]
      rfl
    have hlt : L[j] < pool.length := hL _ (List.getElem_mem _)
    rw [hget, to_size_t_natCast (by omega), contiguous_count_eq_free_run _ hn]
    have := free_run_le_length pool L[j]
    rw [to_int_of_range (by omega) (by omega), List.getElem?_map,
      List.getElem?_eq_getElem hj]
    rfl
  · have h1 : ¬ (0 ≤ j ∧ j < (L.map Int.ofNat).length) := by simpa using hj
    rw [if_neg h1, List.getElem?_eq_none (by simpa using hj),
      List.getElem?_eq_none (by simpa using hj)]

theorem getElem?_exists_of_ne_nil {G : List Int} (h : G ≠ []) : ∃ x, G[0]? = some x := by
  cases G with
  | nil => exact absurd rfl h
  | cons x xs => exact ⟨x, by simp⟩

theorem find_smallest_mem (G : array) (hne : G ≠ []) (hb : ∀ x ∈ G, x ≤ 2147483647) :
    (∃ j : Nat, G[j]? = some (find_smallest (some G))) ∧
      ∀ x ∈ G, find_smallest (some G) ≤ x := by
  obtain ⟨h1, h2, h3⟩ := find_smallest_loop_spec G G.length 0 INT_MAX (by omega)
  have hall : ∀ x ∈ G, find_smallest (some G) ≤ x := by
    intro x hx
    obtain ⟨j, hj, hxj⟩ := List.getElem_of_mem hx
    exact h2 j x (Nat.zero_le _) (by rw [List.getElem?_eq_getElem hj, hxj])
  refine ⟨?_, hall⟩
  rcases h3 with h3 | ⟨j, -, hj⟩
  · obtain ⟨x, hx⟩ := getElem?_exists_of_ne_nil hne
    refine ⟨0, ?_⟩
    rw [hx]
    congr 1
    have hxm : x ∈ G := List.getElem?_mem hx
    have hle1 := hall x hxm
    have hle2 := hb x hxm
    have : find_smallest (some G) = 2147483647 := h3
    omega
  · exact ⟨j, hj⟩

theorem find_largest_mem (G : array) (hne : G ≠ []) (hb : ∀ x ∈ G, -2147483648 ≤ x) :
    (∃ j : Nat, G[j]? = some (find_largest (some G))) ∧
      ∀ x ∈ G, x ≤ find_largest (some G) := by
  obtain ⟨h1, h2, h3⟩ := find_largest_loop_spec G G.length 0 INT_MIN (by omega)
  have hall : ∀ x ∈ G, x ≤ find_largest (some G) := by
    intro x hx
    obtain ⟨j, hj, hxj⟩ := List.getElem_of_mem hx
    exact h2 j x (Nat.zero_le _) (by rw [List.getElem?_eq_getElem hj, hxj])
  refine ⟨?_, hall⟩
  rcases h3 with h3 | ⟨j, -, hj⟩
  · obtain ⟨x, hx⟩ := getElem?_exists_of_ne_nil hne
    refine ⟨0, ?_⟩
    rw [hx]
    congr 1
    have hxm : x ∈ G := List.getElem?_mem hx
    have hle1 := hall x hxm
    have hle2 := hb x hxm
    have : find_largest (some G) = -2147483648 := h3
    omega
  · exact ⟨j, hj⟩

theorem array_contains_first (G : array) (value : Int) (hlen : G.length ≤ 2147483647)
    (hex : ∃ j : Nat, G[j]? = some value) :
    ∃ idx : Nat, idx < G.length ∧ to_int (array_contains (some G) value) = (idx : Int) ∧
      G[idx]? = some value ∧ ∀ j, j < idx → G[j]? ≠ some value := by
  obtain ⟨j, hj⟩ := hex
  have hne : G.length ≠ 0 := by
    intro h0
    rw [List.getElem?_eq_none (by omega)] at hj
    exact Option.noConfusion hj
  obtain ⟨idx, -, h2, h3, h4⟩ := array_contains_loop_spec G value G.length 0 (by omega)
    (by omega) ⟨j, Nat.zero_le _, hj⟩
  have hidx : idx < G.length := by
    by_contra hc
    rw [List.getElem?_eq_none (by omega)] at h3
    exact Option.noConfusion h3
  refine ⟨idx, hidx, ?_, h3, fun j hj => h4 j (Nat.zero_le _) hj⟩
  simp only [array_contains, if_neg hne, h2]
  exact to_int_of_range (by omega) (by omega)

/-- What `best_or_worst_fit` returns on a pool no longer than `INT_MAX`: `-1`
without a qualifying hole, otherwise the first hole start (in address order)
whose length is extremal among the qualifying holes. -/
theorem best_or_worst_fit_spec (pool : memory) (size fuel : Nat) (type : Int)
    (hsize : 1 ≤ size) (hn : pool.length ≤ 2147483647) (hfuel : pool.length < fuel) :
    (hole_list pool size = [] ∧ best_or_worst_fit fuel pool size type = some (-1)) ∨
    ∃ a, a ∈ hole_list pool size ∧ best_or_worst_fit fuel pool size type = some (a : Int) ∧
      (type = BEST_FIT → ∀ b ∈ hole_list pool size, free_run pool a ≤ free_run pool b) ∧
      (type ≠ BEST_FIT → ∀ b ∈ hole_list pool size, free_run pool b ≤ free_run pool a) ∧
      ∀ b ∈ hole_list pool size, free_run pool b = free_run pool a → a ≤ b := by
  unfold best_or_worst_fit
  rw [unallocated_pools_eq pool size fuel hsize hn hfuel]
  by_cases hL : hole_list pool size = []
  · left
    exact ⟨hL, by simp [hL]⟩
  · right
    rw [if_neg hL]
    have hLlen := hole_list_length_le pool size
    have hmapne : (hole_list pool size).map Int.ofNat ≠ [] := by simpa using hL
    simp only [copy_array_self hmapne]
    rw [h_size_eq pool _ hn (fun a ha => hole_list_lt pool size ha)]
    set L := hole_list pool size with hLdef
    set G := L.map (fun a => (free_run pool a : Int)) with hG
    have hGne : G ≠ [] := by simpa [hG] using hL
    have hGlen : G.length = L.length := by simp [hG]
    have hGb : ∀ x ∈ G, 0 ≤ x ∧ x ≤ 2147483647 := by
      intro x hx
      rw [hG, List.mem_map] at hx
      obtain ⟨a, -, rfl⟩ := hx
      have := free_run_le_length pool a
      omega
    set value := (if type = BEST_FIT then find_smallest (some G) else find_largest (some G))
      with hvalue
    have hvmem : ∃ j : Nat, G[j]? = some value := by
      rw [hvalue]
      split
      · exact (find_smallest_mem G hGne (fun x hx => (hGb x hx).2)).1
      · exact (find_largest_mem G hGne (fun x hx => by have := (hGb x hx).1; omega)).1
    obtain ⟨idx, hidx, hcast, hget, hfirst⟩ := array_contains_first G value (by omega) hvmem
    have hidxL : idx < L.length := by omega
    have hgetv : (free_run pool L[idx] : Int) = value := by
      have := hget
      rw [hG, List.getElem?_map, List.getElem?_eq_getElem hidxL] at this
      simpa using this
    refine ⟨L[idx], List.getElem_mem _, ?_, ?_, ?_, ?_⟩
    · rw [hcast]
      have hne1 : (idx : Int) ≠ -1 := by omega
      rw [if_pos hne1]
      congr 1
      rw [Int.toNat_ofNat, List.getD_eq_getElem?_getD, List.getElem?_map,
        List.getElem?_eq_getElem hidxL]
      rfl
    · intro ht b hb
      have hv : value = find_smallest (some G) := by rw [hvalue, if_pos ht]
      have := (find_smallest_mem G hGne (fun x hx => (hGb x hx).2)).2 (free_run pool b)
        (by rw [hG]; exact List.mem_map.2 ⟨b, hb, rfl⟩)
      rw [← hv, ← hgetv] at this
      exact_mod_cast this
    · intro ht b hb
      have hv : value = find_largest (some G) := by rw [hvalue, if_neg ht]
      have := (find_largest_mem G hGne (fun x hx => by have := (hGb x hx).1; omega)).2
        (free_run pool b) (by rw [hG]; exact List.mem_map.2 ⟨b, hb, rfl⟩)
      rw [← hv, ← hgetv] at this
      exact_mod_cast this
    · intro b hb heq
      obtain ⟨j, hj, rfl⟩ := List.getElem_of_mem hb
      by_cases hji : j < idx
      · exfalso
        apply hfirst j hji
        rw [hG, List.getElem?_map, List.getElem?_eq_getElem hj]
        simp only [Option.map_some']
        rw [heq, hgetv]
      · rcases Nat.eq_or_lt_of_le (Nat.le_of_not_lt hji) with e | e
        · subst e; exact le_refl _
        · exact Nat.le_of_lt
            ((List.pairwise_iff_getElem.1 (hole_list_sorted pool size)) idx j hidxL hj e)

theorem le_int_max {n : Nat} (h : (n : Int) ≤ INT_MAX) : n ≤ 2147483647 := by
  unfold INT_MAX at h; omega

/-! ## Holes and free runs -/

theorem exists_hole_of_run (pool : memory) (s : Nat) :
    ∀ size, 1 ≤ size → (∀ j < size, pool[s + j]? = some UNALLOCATED) →
      ∃ a len, IsHole pool a len ∧ size ≤ len := by
  induction s with
  | zero =>
    intro size hsize hfree
    have hrun := free_run_isRun pool 0
    have hle : size ≤ free_run pool 0 := by
      by_contra hc
      exact hrun.2 (hfree _ (by omega))
    exact ⟨0, free_run pool 0, (isHole_iff pool 0 _).2 ⟨Or.inl rfl, by omega, rfl⟩, hle⟩
  | succ s ih =>
    intro size hsize hfree
    by_cases hprev : pool[s]? = some UNALLOCATED
    · obtain ⟨a, len, hh, hl⟩ := ih (size + 1) (by omega) (by
        intro j hj
        rcases Nat.eq_zero_or_pos j with h0 | h0
        · subst h0; exact hprev
        · have := hfree (j - 1) (by omega)
          have e : s + 1 + (j - 1) = s + j := by omega
          rwa [e] at this)
      exact ⟨a, len, hh, by omega⟩
    · have hrun := free_run_isRun pool (s + 1)
      have hle : size ≤ free_run pool (s + 1) := by
        by_contra hc
        exact hrun.2 (hfree _ (by omega))
      exact ⟨s + 1, free_run pool (s + 1),
        (isHole_iff pool (s + 1) _).2 ⟨Or.inr hprev, by omega, rfl⟩, hle⟩

theorem hole_list_eq_nil_iff (pool : memory) (size : Nat) :
    hole_list pool size = [] ↔ ¬ ∃ a len, IsHole pool a len ∧ size ≤ len := by
  constructor
  · rintro h ⟨a, len, hh, hl⟩
    have : a ∈ hole_list pool size := (mem_hole_list pool size a).2 ⟨len, hh, hl⟩
    rw [h] at this
    exact absurd this (List.not_mem_nil a)
  · intro h
    apply List.eq_nil_iff_forall_not_mem.2
    intro a ha
    obtain ⟨len, hh, hl⟩ := (mem_hole_list pool size a).1 ha
    exact h ⟨a, len, hh, hl⟩

theorem IsHole.len_eq {pool : memory} {a len : Nat} (h : IsHole pool a len) :
    len = free_run pool a := ((isHole_iff pool a len).1 h).2.2

theorem IsHole.within_pool {pool : memory} {a len : Nat} (h : IsHole pool a len) :
    a + len ≤ pool.length := by
  have h0 := h.2.1 (len - 1) (by have := h.1; omega)
  by_contra hc
  rw [List.getElem?_eq_none (by omega)] at h0
  exact Option.noConfusion h0

/-- Two holes of one pool are equal or separated by an occupied slot. -/
theorem IsHole.separated {pool : memory} {a len b len' : Nat} (h : IsHole pool a len)
    (h' : IsHole pool b len') (hab : a < b) : a + len < b := by
  by_contra hc
  rcases Nat.eq_or_lt_of_le (Nat.le_of_not_lt hc) with e | e
  · -- `b` is the slot just after the first hole
    have := h'.2.1 0 h'.1
    rw [Nat.add_zero, e] at this
    exact h.2.2.2 this
  · rcases h'.2.2.1 with hb | hb
    · omega
    · apply hb
      have := h.2.1 (b - 1 - a) (by omega)
      have e2 : a + (b - 1 - a) = b - 1 := by omega
      rwa [e2] at this

/-! ## Address selection and `allocate` -/

theorem first_fit_spec (pool : memory) (size fuel : Nat) (hsize : 1 ≤ size)
    (hn : pool.length ≤ 2147483647) (hfuel : pool.length < fuel) :
    (hole_list pool size = [] ∧ first_fit fuel pool size = some (-1)) ∨
    ∃ a, a ∈ hole_list pool size ∧ first_fit fuel pool size = some (a : Int) ∧
      ∀ b ∈ hole_list pool size, a ≤ b := by
  rw [first_fit_eq pool size fuel hsize hn hfuel]
  have hs := hole_list_sorted pool size
  cases h : hole_list pool size with
  | nil => exact Or.inl ⟨rfl, rfl⟩
  | cons a l =>
    right
    refine ⟨a, List.mem_cons_self _ _, rfl, ?_⟩
    intro b hb
    rw [h] at hs
    rcases List.mem_cons.1 hb with e | e
    · omega
    · exact Nat.le_of_lt (List.rel_of_pairwise_cons hs e)

theorem selected_spec (pool : memory) (size fuel : Nat) (type : Int) (hsize : 1 ≤ size)
    (hn : pool.length ≤ 2147483647) (hfuel : pool.length < fuel) :
    (hole_list pool size = [] ∧ selected fuel pool size type = some (-1)) ∨
    ∃ a, a ∈ hole_list pool size ∧ selected fuel pool size type = some (a : Int) := by
  unfold selected
  split
  · rcases first_fit_spec pool size fuel hsize hn hfuel with h | ⟨a, h1, h2, -⟩
    · exact Or.inl h
    · exact Or.inr ⟨a, h1, h2⟩
  · rcases best_or_worst_fit_spec pool size fuel type hsize hn hfuel with h | ⟨a, h1, h2, -⟩
    · exact Or.inl h
    · exact Or.inr ⟨a, h1, h2⟩

theorem allocate_eq (fuel : Nat) (pool : memory) (process : Int) (size : Nat) (type : Int) :
    allocate fuel pool process size type =
      if size = 0 ∨ size > pool.length then some pool
      else
        match selected fuel pool size type with
        | none => none
        | some address =>
          if address ≥ 0 ∧ to_size_t address < pool.length then
            some (set_values pool process (to_size_t address)
              ((to_size_t address + size) % 18446744073709551616))
          else some pool := rfl

theorem allocate_spec (pool : memory) (process : Int) (size fuel : Nat) (type : Int)
    (hsize : 1 ≤ size) (hle : size ≤ pool.length) (hn : pool.length ≤ 2147483647)
    (hfuel : pool.length < fuel) :
    (hole_list pool size = [] ∧ allocate fuel pool process size type = some pool) ∨
    ∃ a, a ∈ hole_list pool size ∧ selected fuel pool size type = some (a : Int) ∧
      allocate fuel pool process size type = some (set_values pool process a (a + size)) := by
  have hg : ¬ (size = 0 ∨ size > pool.length) := by omega
  rw [allocate_eq, if_neg hg]
  rcases selected_spec pool size fuel type hsize hn hfuel with ⟨h1, h2⟩ | ⟨a, h1, h2⟩
  · left
    refine ⟨h1, ?_⟩
    rw [h2]
    have : ¬ ((-1 : Int) ≥ 0 ∧ to_size_t (-1) < pool.length) := by
      intro h; have := h.1; omega
    simp only [if_neg this]
  · right
    refine ⟨a, h1, h2, ?_⟩
    rw [h2]
    have halt := hole_list_lt pool size h1
    have hts : to_size_t (a : Int) = a := to_size_t_natCast (by omega)
    have hc : (a : Int) ≥ 0 ∧ a < pool.length := ⟨by omega, halt⟩
    simp only [hts]
    rw [if_pos hc, Nat.mod_eq_of_lt (by omega)]

/-! ## Pools longer than `INT_MAX` -/

theorem replicate_append_length (n : Nat) (v w : Int) :
    (List.replicate n v ++ [w]).length = n + 1 := by simp

theorem replicate_append_getElem?_lt (n : Nat) (v w : Int) {j : Nat} (h : j < n) :
    (List.replicate n v ++ [w])[j]? = some v := by
  rw [List.getElem?_append_left (by simpa using h), List.getElem?_replicate, if_pos h]

theorem replicate_append_getElem?_eq (n : Nat) (v w : Int) :
    (List.replicate n v ++ [w])[n]? = some w := by
  rw [List.getElem?_append_right (by simp)]
  simp

theorem replicate_append_getElem?_gt (n : Nat) (v w : Int) {j : Nat} (h : n < j) :
    (List.replicate n v ++ [w])[j]? = none :=
  List.getElem?_eq_none (by simp; omega)

theorem contiguous_count_of_isRun {pool : array} {value : Int} {i r : Nat}
    (h : IsRun pool value i r) :
    contiguous_count pool value i = to_size_t (to_int r) := by
  obtain ⟨r', hr', heq⟩ := contiguous_count_wrap pool value i
  rw [heq, hr'.unique h]

theorem isRun_occupied (n i : Nat) (hi : i < n) :
    IsRun (occupied_then_free n) UNALLOCATED i 0 := by
  refine ⟨fun j hj => absurd hj (Nat.not_lt_zero j), ?_⟩
  unfold occupied_then_free
  rw [Nat.add_zero, replicate_append_getElem?_lt n 65 UNALLOCATED hi]
  decide

theorem isRun_last (n : Nat) : IsRun (occupied_then_free n) UNALLOCATED n 1 := by
  unfold occupied_then_free
  refine ⟨?_, ?_⟩
  · intro j hj
    have : j = 0 := by omega
    subst this
    exact replicate_append_getElem?_eq n 65 UNALLOCATED
  · rw [replicate_append_getElem?_gt n 65 UNALLOCATED (by omega)]
    exact fun h => Option.noConfusion h

theorem scan_occupied_then_free (n : Nat) (hn : n + 1 < 18446744073709551616) :
    ∀ (d i fuel count : Nat) (temp : array), i + d = n → d + 2 ≤ fuel →
      unallocated_pools_loop (occupied_then_free n) 1 fuel i count temp =
        some (count + 1, temp.set count (to_int (n : Int))) := by
  have hlen : (occupied_then_free n).length = n + 1 := replicate_append_length n 65 _
  have h0 : to_size_t (to_int ((0 : Nat) : Int)) = 0 := by decide
  have h1 : to_size_t (to_int ((1 : Nat) : Int)) = 1 := by decide
  intro d
  induction d with
  | zero =>
    intro i fuel count temp hi hfuel
    obtain ⟨f, rfl⟩ : ∃ f, fuel = f + 1 + 1 := ⟨fuel - 2, by omega⟩
    have hin : i = n := by omega
    subst hin
    have hlt : i < (occupied_then_free i).length := by omega
    have hge : contiguous_count (occupied_then_free i) UNALLOCATED i ≥ 1 := by
      rw [contiguous_count_of_isRun (isRun_last i), h1]
    rw [unallocated_pools_loop]
    simp only [if_pos hlt, if_pos hge]
    rw [contiguous_count_of_isRun (isRun_last i), h1,
      size_t_advance (by omega) (by omega), unallocated_pools_loop]
    have hnlt : ¬ i + 1 < (occupied_then_free i).length := by omega
    simp only [if_neg hnlt]
  | succ d ih =>
    intro i fuel count temp hi hfuel
    obtain ⟨f, rfl⟩ : ∃ f, fuel = f + 1 := ⟨fuel - 1, by omega⟩
    have hlt : i < (occupied_then_free n).length := by omega
    have hnge : ¬ contiguous_count (occupied_then_free n) UNALLOCATED i ≥ 1 := by
      rw [contiguous_count_of_isRun (isRun_occupied n i (by omega)), h0]
      omega
    rw [unallocated_pools_loop]
    simp only [if_pos hlt, if_neg hnge]
    rw [Nat.mod_eq_of_lt (by omega : i + 1 < 18446744073709551616)]
    exact ih (i + 1) f count temp (by omega) (by omega)

theorem unallocated_pools_occupied_then_free (n fuel : Nat)
    (hn : n + 1 < 18446744073709551616) (hfuel : n + 2 ≤ fuel) :
    unallocated_pools fuel (occupied_then_free n) 1 = some (some [to_int (n : Int)]) := by
  have hlen : (occupied_then_free n).length = n + 1 := replicate_append_length n 65 _
  unfold unallocated_pools
  rw [hlen, new_array_eq (by omega)]
  simp only [scan_occupied_then_free n hn n 0 fuel 0 _ (by omega) hfuel]
  rw [copy_array_take (by omega) (by simp), take_succ_set _ (by simp)]
  simp

theorem isHole_occupied_then_free (n : Nat) (hn : 0 < n) :
    IsHole (occupied_then_free n) n 1 := by
  refine ⟨by omega, (isRun_last n).1, Or.inr ?_, (isRun_last n).2⟩
  unfold occupied_then_free
  rw [replicate_append_getElem?_lt n 65 UNALLOCATED (by omega)]
  decide

theorem to_int_two_pow_31 : to_int ((2147483648 : Nat) : Int) = -2147483648 := by decide

/-! ### The `int` counter of `contiguous_count` on a long FREE run -/

theorem isRun_free_then_occupied (n : Nat) :
    IsRun (free_then_occupied n) UNALLOCATED 0 n := by
  unfold free_then_occupied
  refine ⟨?_, ?_⟩
  · intro j hj
    rw [Nat.zero_add]
    exact replicate_append_getElem?_lt n UNALLOCATED 65 hj
  · rw [Nat.zero_add, replicate_append_getElem?_eq]
    decide

theorem to_size_t_to_int_two_pow_31 :
    to_size_t (to_int ((2147483648 : Nat) : Int)) = 18446744071562067968 := by decide

/-- One scan step that records address `0` and then leaves the pool: the shape
of the scan when the hole length read at `0` came back larger than the pool. -/
theorem first_fit_of_wrapped_count (pool : memory) (size m h fuel : Nat)
    (hlen : pool.length = m) (hm : 0 < m)
    (hcc : contiguous_count pool UNALLOCATED 0 = h) (hge : h ≥ size)
    (hnext : ((0 + (h + 18446744073709551615) % 18446744073709551616)
      % 18446744073709551616 + 1) % 18446744073709551616 ≥ m) :
    first_fit (fuel + 2) pool size = some 0 := by
  have hlt : 0 < pool.length := by omega
  have hge' : contiguous_count pool UNALLOCATED 0 ≥ size := by rw [hcc]; exact hge
  have hnlt : ¬ ((0 + (h + 18446744073709551615) % 18446744073709551616)
      % 18446744073709551616 + 1) % 18446744073709551616 < pool.length := by
    rw [hlen]; exact Nat.not_lt.2 hnext
  have hti : to_int ((0 : Nat) : Int) = 0 := by decide
  have hfuel : fuel + 2 = fuel + 1 + 1 := rfl
  have hm0 : m ≠ 0 := by omega
  unfold first_fit unallocated_pools
  rw [hlen, new_array_eq hm0, hfuel]
  dsimp only
  rw [unallocated_pools_loop]
  simp only [if_pos hlt, if_pos hge']
  rw [hcc, unallocated_pools_loop]
  simp only [if_neg hnlt]
  rw [copy_array_take (by omega) (by simp; omega), take_succ_set _ (by simp; omega), hti]
  rfl

theorem first_fit_long_free_pool (fuel : Nat) :
    first_fit (fuel + 2) long_free_pool 2147483649 = some 0 := by
  have hlen : long_free_pool.length = 2147483649 := by
    unfold long_free_pool free_then_occupied
    rw [replicate_append_length]
  have hcc : contiguous_count long_free_pool UNALLOCATED 0 = 18446744071562067968 := by
    unfold long_free_pool
    rw [contiguous_count_of_isRun (isRun_free_then_occupied 2147483648),
      to_size_t_to_int_two_pow_31]
  exact first_fit_of_wrapped_count long_free_pool 2147483649 2147483649
    18446744071562067968 fuel hlen (by norm_num) hcc (by norm_num) (by norm_num)

/-! ## `compare_array` -/

theorem compare_array_loop_iff (a b : array) (hlen : a.length = b.length) (k i : Nat)
    (hk : a.length ≤ i + k) :
    compare_array_loop a b k i = true ↔ ∀ j, i ≤ j → a[j]? = b[j]? := by
  induction k generalizing i with
  | zero =>
    simp only [compare_array_loop, true_iff]
    intro j hj
    rw [List.getElem?_eq_none (by omega), List.getElem?_eq_none (by omega)]
  | succ k ih =>
    simp only [compare_array_loop]
    by_cases hi : i < a.length
    · rw [if_pos hi]
      have hib : i < b.length := by omega
      have hga : a.getD i 0 = a[i] := by
        rw [List.getD_eq_getElem?_getD, List.getElem?_eq_getElem hi]; rfl
      have hgb : b.getD i 0 = b[i] := by
        rw [List.getD_eq_getElem?_getD, List.getElem?_eq_getElem hib]; rfl
      by_cases he : a.getD i 0 = b.getD i 0
      · have hne : ¬ (a.getD i 0 ≠ b.getD i 0) := fun h => h he
        rw [if_neg hne, ih (i + 1) (by omega)]
        constructor
        · intro h j hj
          rcases Nat.eq_or_lt_of_le hj with e | e
          · subst e
            rw [List.getElem?_eq_getElem hi, List.getElem?_eq_getElem hib, ← hga, ← hgb, he]
          · exact h j e
        · intro h j hj
          exact h j (by omega)
      · rw [if_pos he]
        constructor
        · intro h; exact absurd h (by decide)
        · intro h
          exfalso
          apply he
          have := h i (le_refl _)
          rw [List.getElem?_eq_getElem hi, List.getElem?_eq_getElem hib] at this
          rw [hga, hgb]
          exact Option.some.inj this
    · rw [if_neg hi]
      simp only [true_iff]
      intro j hj
      rw [List.getElem?_eq_none (by omega), List.getElem?_eq_none (by omega)]

theorem compare_array_some_iff (a b : array) :
    compare_array (some a) (some b) = true ↔ a = b := by
  simp only [compare_array]
  by_cases hlen : a.length = b.length
  · have h1 : ¬ a.length ≠ b.length := fun h => h hlen
    rw [if_neg h1]
    by_cases h0 : a.length = 0
    · rw [if_pos h0]
      have ha : a = [] := List.length_eq_zero.1 h0
      have hb : b = [] := List.length_eq_zero.1 (by omega)
      simp [ha, hb]
    · rw [if_neg h0, compare_array_loop_iff a b hlen _ _ (by omega)]
      constructor
      · intro h
        exact List.ext_getElem? (fun j => h j (Nat.zero_le _))
      · rintro rfl j -
        rfl
  · rw [if_pos hlen]
    constructor
    · intro h; exact absurd h (by decide)
    · rintro rfl; exact absurd rfl hlen

/-! ## One pass of `compact_memory` -/

theorem set_append_cons (pre : List Int) (y v : Int) (rest : List Int) :
    (pre ++ y :: rest).set pre.length v = pre ++ v :: rest := by
  induction pre with
  | nil => rfl
  | cons x xs ih => simp [ih]

theorem getD_append_cons (pre : List Int) (y : Int) (rest : List Int) :
    (pre ++ y :: rest).getD pre.length 0 = y := by
  induction pre with
  | nil => rfl
  | cons x xs ih => simpa using ih

theorem shift_length (l : List Int) : (shift l).length = l.length := by
  induction l with
  | nil => rfl
  | cons x xs ih =>
    simp only [shift]
    split <;> simp [ih]

theorem shift_singleton (y : Int) : shift [y] = [y] := by
  simp only [shift]
  split
  · rename_i h; simp [h]
  · rfl

theorem compact_pass_append (k : Nat) (pre : List Int) (y : Int) (rest : List Int)
    (hk : rest.length ≤ k) :
    compact_pass k (pre ++ y :: rest) (pre.length + 1) = pre ++ shift (y :: rest) := by
  induction k generalizing pre y rest with
  | zero =>
    have : rest = [] := List.length_eq_zero.1 (by omega)
    subst this
    rw [shift_singleton]
    rfl
  | succ k ih =>
    cases rest with
    | nil =>
      have hlt : ¬ pre.length + 1 < (pre ++ [y]).length := by simp
      simp only [compact_pass, if_neg hlt]
      rw [shift_singleton]
    | cons z rest' =>
      have hlt : pre.length + 1 < (pre ++ y :: z :: rest').length := by simp
      have hk' : rest'.length ≤ k := by simpa using hk
      have e1 : pre ++ y :: z :: rest' = (pre ++ [y]) ++ z :: rest' := by simp
      have hz : (pre ++ y :: z :: rest').getD (pre.length + 1) 0 = z := by
        rw [e1]
        have := getD_append_cons (pre ++ [y]) z rest'
        simpa using this
      simp only [compact_pass, if_pos hlt, Nat.add_sub_cancel, getD_append_cons, hz]
      by_cases hy : y = UNALLOCATED
      · rw [if_pos hy, set_append_cons]
        have e2 : pre ++ z :: z :: rest' = (pre ++ [z]) ++ z :: rest' := by simp
        have e3 : pre.length + 1 = (pre ++ [z]).length := by simp
        rw [e2, e3, set_append_cons, ← e3]
        have e4 : pre.length + 1 + 1 = (pre ++ [z]).length + 1 := by simp
        rw [e4, ih (pre ++ [z]) UNALLOCATED rest' hk']
        simp [shift, hy]
      · rw [if_neg hy]
        have e4 : pre.length + 1 + 1 = (pre ++ [y]).length + 1 := by simp
        rw [e1, e4, ih (pre ++ [y]) z rest' hk']
        simp [shift, hy]

theorem compact_pass_eq_shift (pool : memory) :
    compact_pass (pool.length - 1) pool 1 = shift pool := by
  cases pool with
  | nil => rfl
  | cons y rest =>
    have := compact_pass_append rest.length [] y rest (le_refl _)
    simpa using this

/-! ## The fixed point -/

theorem append_free_eq_cons {xs : List Int}
    (h : xs ++ [UNALLOCATED] = UNALLOCATED :: xs) : ∀ y ∈ xs, y = UNALLOCATED := by
  induction xs with
  | nil => intro y hy; exact absurd hy (List.not_mem_nil y)
  | cons x xs ih =>
    simp only [List.cons_append, List.cons.injEq] at h
    obtain ⟨hx, hrest⟩ := h
    subst hx
    intro y hy
    rcases List.mem_cons.1 hy with e | e
    · exact e
    · exact ih hrest y e

theorem misplaced_append_free (xs : List Int) :
    misplaced (xs ++ [UNALLOCATED]) = misplaced xs := by
  induction xs with
  | nil => simp [misplaced]
  | cons x xs ih =>
    simp only [List.cons_append, misplaced, List.append_eq]
    have : (∃ y ∈ xs ++ [UNALLOCATED], y ≠ UNALLOCATED) ↔ ∃ y ∈ xs, y ≠ UNALLOCATED := by
      constructor
      · rintro ⟨y, hy, hne⟩
        rcases List.mem_append.1 hy with e | e
        · exact ⟨y, e, hne⟩
        · exact absurd (List.mem_singleton.1 e) hne
      · rintro ⟨y, hy, hne⟩
        exact ⟨y, List.mem_append_left _ hy, hne⟩
    simp only [this, ih]

theorem misplaced_shift {p : List Int} (h : shift p ≠ p) :
    misplaced (shift p) + 1 = misplaced p := by
  induction p with
  | nil => exact absurd rfl h
  | cons x xs ih =>
    simp only [shift] at h ⊢
    by_cases hx : x = UNALLOCATED
    · rw [if_pos hx] at h ⊢
      rw [misplaced_append_free]
      have hex : ∃ y ∈ xs, y ≠ UNALLOCATED := by
        by_contra hc
        apply h
        have hall : ∀ y ∈ xs, y = UNALLOCATED := by
          intro y hy
          by_contra hne
          exact hc ⟨y, hy, hne⟩
        rw [hx, List.eq_replicate_of_mem hall]
        rw [← List.replicate_succ, ← List.replicate_succ']
      simp only [misplaced]
      rw [if_pos ⟨hx, hex⟩]
    · rw [if_neg hx] at h ⊢
      have hs : shift xs ≠ xs := fun e => h (by rw [e])
      simp only [misplaced]
      have h1 : ¬ (x = UNALLOCATED ∧ ∃ y ∈ shift xs, y ≠ UNALLOCATED) := fun c => hx c.1
      have h2 : ¬ (x = UNALLOCATED ∧ ∃ y ∈ xs, y ≠ UNALLOCATED) := fun c => hx c.1
      rw [if_neg h1, if_neg h2]
      exact ih hs

theorem misplaced_lt_length {p : List Int} (h : p ≠ []) : misplaced p + 1 ≤ p.length := by
  induction p with
  | nil => exact absurd rfl h
  | cons x xs ih =>
    cases xs with
    | nil => simp [misplaced]
    | cons y ys =>
      have := ih (List.cons_ne_nil y ys)
      have hle : misplaced (x :: y :: ys) ≤ misplaced (y :: ys) + 1 := by
        rw [misplaced]
        split <;> omega
      simp only [List.length_cons] at this ⊢
      omega

theorem stable_partition_shift (p : List Int) :
    stable_partition (shift p) = stable_partition p := by
  induction p with
  | nil => rfl
  | cons x xs ih =>
    simp only [shift]
    by_cases hx : x = UNALLOCATED
    · rw [if_pos hx]
      subst hx
      simp [stable_partition, List.filter_cons, List.count_cons, List.replicate_succ']
    · rw [if_neg hx]
      unfold stable_partition at ih ⊢
      have hx' : ¬ (UNALLOCATED = x) := fun e => hx e.symm
      simp only [List.filter_cons, List.count_cons, hx, hx', ne_eq, not_false_eq_true,
        decide_True, beq_iff_eq, if_true, if_false, Nat.add_zero, List.cons_append]
      rw [ih]

theorem eq_stable_partition_of_shift_eq {p : List Int} (h : shift p = p) :
    p = stable_partition p := by
  induction p with
  | nil => rfl
  | cons x xs ih =>
    simp only [shift] at h
    by_cases hx : x = UNALLOCATED
    · rw [if_pos hx] at h
      subst hx
      have hall := append_free_eq_cons h
      have hxs : xs = List.replicate xs.length UNALLOCATED := List.eq_replicate_of_mem hall
      unfold stable_partition
      have hf : List.filter (fun tag => decide (tag ≠ UNALLOCATED)) (UNALLOCATED :: xs) = [] := by
        rw [List.filter_eq_nil_iff]
        intro y hy
        rcases List.mem_cons.1 hy with e | e
        · simp [e]
        · simp [hall y e]
      have hc : List.count UNALLOCATED (UNALLOCATED :: xs) = xs.length + 1 := by
        rw [List.count_cons_self]
        congr 1
        rw [List.count_eq_length]
        intro y hy
        exact (hall y hy).symm
      rw [hf, hc, List.nil_append, List.replicate_succ, ← hxs]
    · rw [if_neg hx] at h
      have hs : shift xs = xs := List.tail_eq_of_cons_eq h
      have := ih hs
      unfold stable_partition at this ⊢
      have hx' : ¬ (UNALLOCATED = x) := fun e => hx e.symm
      simp only [List.filter_cons, List.count_cons, hx, hx', ne_eq, not_false_eq_true,
        decide_True, beq_iff_eq, if_true, if_false, Nat.add_zero, List.cons_append]
      rw [← this]

theorem shift_ne_nil {p : List Int} (h : p ≠ []) : shift p ≠ [] := by
  intro e
  have := shift_length p
  rw [e] at this
  exact h (List.length_eq_zero.1 this.symm)

theorem compact_memory_loop_spec (fuel : Nat) :
    ∀ p : memory, p ≠ [] → misplaced p + 1 ≤ fuel →
      compact_memory_loop fuel (shift p) (some p) = some (stable_partition p) := by
  induction fuel with
  | zero => intro p _ h; omega
  | succ fuel ih =>
    intro p hp hfuel
    simp only [compact_memory_loop]
    by_cases he : shift p = p
    · rw [if_pos ((compare_array_some_iff _ _).2 he), he]
      exact congrArg some (eq_stable_partition_of_shift_eq he)
    · have hc : ¬ compare_array (some (shift p)) (some p) = true :=
        fun h => he ((compare_array_some_iff _ _).1 h)
      rw [if_neg hc, compact_pass_eq_shift, copy_array_self (shift_ne_nil hp)]
      have hm := misplaced_shift he
      rw [ih (shift p) (shift_ne_nil hp) (by omega), stable_partition_shift]

theorem compact_memory_eq (pool : memory) (fuel : Nat) (hne : pool ≠ [])
    (hfuel : misplaced pool + 2 ≤ fuel) :
    compact_memory fuel pool = some (stable_partition pool) := by
  obtain ⟨f, rfl⟩ : ∃ f, fuel = f + 1 := ⟨fuel - 1, by omega⟩
  unfold compact_memory
  simp only [compact_memory_loop]
  have hc : ¬ compare_array (some pool) none = true := by simp [compare_array]
  rw [if_neg hc, compact_pass_eq_shift, copy_array_self hne]
  exact compact_memory_loop_spec f pool hne (by omega)

/-- On a size-0 array (which `new_array` never returns) the guard of
`compact_memory` compares against `NULL` on every round: no fuel suffices. -/
theorem compact_memory_nil (fuel : Nat) : compact_memory fuel [] = none := by
  unfold compact_memory
  induction fuel with
  | zero => rfl
  | succ fuel ih =>
    simp only [compact_memory_loop]
    have hc : ¬ compare_array (some ([] : memory)) none = true := by simp [compare_array]
    rw [if_neg hc]
    exact ih

theorem stable_partition_length (pool : memory) :
    (stable_partition pool).length = pool.length := by
  unfold stable_partition
  induction pool with
  | nil => rfl
  | cons x xs ih =>
    simp only [List.length_append, List.length_replicate, ne_eq] at ih ⊢
    by_cases hx : x = UNALLOCATED
    · subst hx
      simp only [List.filter_cons, List.count_cons_self, ne_eq, not_true_eq_false,
        decide_False, List.length_cons]
      simp only [Bool.false_eq_true, if_false]
      omega
    · have hx' : ¬ (UNALLOCATED = x) := fun e => hx e.symm
      simp only [List.filter_cons, List.count_cons, hx, hx', ne_eq, not_false_eq_true,
        decide_True, beq_iff_eq, if_true, if_false, Nat.add_zero, List.length_cons]
      omega

theorem stable_partition_filter (pool : memory) :
    (stable_partition pool).filter (fun tag => decide (tag ≠ UNALLOCATED)) =
      pool.filter (fun tag => decide (tag ≠ UNALLOCATED)) := by
  unfold stable_partition
  rw [List.filter_append, List.filter_filter]
  have h1 : List.filter (fun tag => decide (tag ≠ UNALLOCATED))
      (List.replicate (List.count UNALLOCATED pool) UNALLOCATED) = [] := by
    rw [List.filter_eq_nil_iff]
    intro y hy
    rw [(List.mem_replicate.1 hy).2]
    simp
  rw [h1, List.append_nil]
  congr 1
  funext tag
  simp

/-! ## Compaction: idempotence and pass count -/

theorem stable_partition_count (pool : memory) :
    (stable_partition pool).count UNALLOCATED = pool.count UNALLOCATED := by
  unfold stable_partition
  rw [List.count_append, List.count_replicate_self]
  have : List.count UNALLOCATED
      (List.filter (fun tag => decide (tag ≠ UNALLOCATED)) pool) = 0 := by
    rw [List.count_eq_zero]
    intro h
    have := (List.mem_filter.1 h).2
    simp at this
  omega

theorem stable_partition_idem (pool : memory) :
    stable_partition (stable_partition pool) = stable_partition pool := by
  have h1 := stable_partition_filter pool
  have h2 := stable_partition_count pool
  have e : stable_partition (stable_partition pool) =
      (stable_partition pool).filter (fun tag => decide (tag ≠ UNALLOCATED)) ++
        List.replicate ((stable_partition pool).count UNALLOCATED) UNALLOCATED := rfl
  rw [e, h1, h2]
  rfl

theorem stable_partition_ne_nil {pool : memory} (h : pool ≠ []) : stable_partition pool ≠ [] := by
  intro e
  have := stable_partition_length pool
  rw [e] at this
  exact h (List.length_eq_zero.1 this.symm)

theorem misplaced_le_count (p : List Int) : misplaced p ≤ p.count UNALLOCATED := by
  induction p with
  | nil => simp [misplaced]
  | cons x xs ih =>
    rw [misplaced]
    split
    · rename_i h
      rw [h.1, List.count_cons_self]
      omega
    · have := List.count_le_count_cons UNALLOCATED x xs
      omega

theorem shift_stable_partition (pool : memory) :
    shift (stable_partition pool) = stable_partition pool := by
  by_contra h
  have h1 := misplaced_shift h
  -- the stable partition has no misplaced FREE slot
  have hz : misplaced (stable_partition pool) = 0 := by
    unfold stable_partition
    generalize List.count UNALLOCATED pool = k
    have hocc : ∀ y ∈ List.filter (fun tag => decide (tag ≠ UNALLOCATED)) pool,
        y ≠ UNALLOCATED := by
      intro y hy
      have := (List.mem_filter.1 hy).2
      simpa using this
    generalize List.filter (fun tag => decide (tag ≠ UNALLOCATED)) pool = occ at hocc
    induction occ with
    | nil =>
      rw [List.nil_append]
      induction k with
      | zero => rfl
      | succ k ih =>
        rw [List.replicate_succ, misplaced]
        have : ¬ (UNALLOCATED = UNALLOCATED ∧
            ∃ y ∈ List.replicate k UNALLOCATED, y ≠ UNALLOCATED) := by
          rintro ⟨-, y, hy, hne⟩
          exact hne (List.mem_replicate.1 hy).2
        rw [if_neg this, ih]
    | cons x xs ih =>
      rw [List.cons_append, misplaced]
      have hx : x ≠ UNALLOCATED := hocc x (List.mem_cons_self _ _)
      have : ¬ (x = UNALLOCATED ∧
          ∃ y ∈ xs ++ List.replicate k UNALLOCATED, y ≠ UNALLOCATED) := fun c => hx c.1
      rw [if_neg this]
      exact ih (fun y hy => hocc y (List.mem_cons_of_mem _ hy))
  omega

theorem compact_memory_passes_spec (fuel : Nat) :
    ∀ p : memory, p ≠ [] → misplaced p + 1 ≤ fuel →
      ∃ n, n ≤ misplaced p ∧ compact_memory_passes fuel (shift p) (some p) = some n := by
  induction fuel with
  | zero => intro p _ h; omega
  | succ fuel ih =>
    intro p hp hfuel
    simp only [compact_memory_passes]
    by_cases he : shift p = p
    · rw [if_pos ((compare_array_some_iff _ _).2 he)]
      exact ⟨0, Nat.zero_le _, rfl⟩
    · have hc : ¬ compare_array (some (shift p)) (some p) = true :=
        fun h => he ((compare_array_some_iff _ _).1 h)
      rw [if_neg hc, compact_pass_eq_shift, copy_array_self (shift_ne_nil hp)]
      have hm := misplaced_shift he
      obtain ⟨n, hn, hn'⟩ := ih (shift p) (shift_ne_nil hp) (by omega)
      exact ⟨n + 1, by omega, by rw [hn']; rfl⟩

theorem compact_memory_passes_eq (pool : memory) (fuel : Nat) (hne : pool ≠ [])
    (hfuel : misplaced pool + 2 ≤ fuel) :
    ∃ n, 1 ≤ n ∧ n ≤ misplaced pool + 1 ∧ compact_memory_passes fuel pool none = some n := by
  obtain ⟨f, rfl⟩ : ∃ f, fuel = f + 1 := ⟨fuel - 1, by omega⟩
  simp only [compact_memory_passes]
  have hc : ¬ compare_array (some pool) none = true := by simp [compare_array]
  rw [if_neg hc, compact_pass_eq_shift, copy_array_self hne]
  obtain ⟨n, hn, hn'⟩ := compact_memory_passes_spec f pool hne (by omega)
  exact ⟨n + 1, by omega, by omega, by rw [hn']; rfl⟩

/-! ## The scan of `unallocated_pools`, step by step -/

theorem unallocated_pools_loop_succ (pool : memory) (size fuel i count : Nat) (temp : array) :
    unallocated_pools_loop pool size (fuel + 1) i count temp =
      if i < pool.length then
        unallocated_pools_loop pool size fuel
          (unallocated_pools_body pool size i count temp).1
          (unallocated_pools_body pool size i count temp).2.1
          (unallocated_pools_body pool size i count temp).2.2
      else some (count, temp) := by
  rw [unallocated_pools_loop]
  unfold unallocated_pools_body
  by_cases hi : i < pool.length
  · simp only [if_pos hi]
    by_cases hq : contiguous_count pool UNALLOCATED i ≥ size
    · simp only [if_pos hq]
    · simp only [if_neg hq]
  · simp only [if_neg hi]

theorem unallocated_pools_body_advances (pool : memory) (size i count : Nat) (temp : array)
    (hsize : 1 ≤ size) (hn : pool.length ≤ 2147483647) (hi : i < pool.length)
    (hcount : count ≤ i) :
    i < (unallocated_pools_body pool size i count temp).1 ∧
      (unallocated_pools_body pool size i count temp).1 ≤ pool.length ∧
      (unallocated_pools_body pool size i count temp).2.1 ≤
        (unallocated_pools_body pool size i count temp).1 := by
  unfold unallocated_pools_body
  rw [contiguous_count_eq_free_run i hn]
  have hrun := free_run_isRun pool i
  by_cases hq : free_run pool i ≥ size
  · have hpos : 0 < free_run pool i := by omega
    have hle : i + free_run pool i ≤ pool.length := by
      rcases hrun.zero_or_within with h0 | h0 <;> omega
    simp only [if_pos hq]
    rw [size_t_advance hpos (by omega)]
    exact ⟨by omega, hle, by omega⟩
  · simp only [if_neg hq]
    rw [Nat.mod_eq_of_lt (by omega : i + 1 < 18446744073709551616)]
    exact ⟨by omega, by omega, by omega⟩

theorem unallocated_pools_loop_stuck (fuel : Nat) :
    ∀ (count : Nat) (temp : array), unallocated_pools_loop [65] 0 fuel 0 count temp = none := by
  induction fuel with
  | zero => intro count temp; rfl
  | succ fuel ih =>
    intro count temp
    rw [unallocated_pools_loop_succ]
    have hlt : 0 < ([65] : memory).length := by decide
    rw [if_pos hlt]
    have h1 : (unallocated_pools_body [65] 0 0 count temp).1 = 0 := by
      unfold unallocated_pools_body
      have hcc : contiguous_count [65] UNALLOCATED 0 = 0 := by decide
      rw [hcc]
      rfl
    rw [h1]
    exact ih _ _

/-! ## Length of the pool -/

theorem allocate_length (fuel : Nat) (pool : memory) (process : Int) (size : Nat) (type : Int)
    (pool' : memory) (h : allocate fuel pool process size type = some pool') :
    pool'.length = pool.length := by
  rw [allocate_eq] at h
  split at h
  · cases h; rfl
  · split at h
    · exact Option.noConfusion h
    · split at h
      · cases h; exact set_values_length _ _ _ _
      · cases h; rfl

theorem compact_pass_length (pool : memory) :
    (compact_pass (pool.length - 1) pool 1).length = pool.length := by
  rw [compact_pass_eq_shift, shift_length]

theorem compact_memory_loop_length (fuel : Nat) :
    ∀ (pool : memory) (copy : Option array) (pool' : memory),
      compact_memory_loop fuel pool copy = some pool' → pool'.length = pool.length := by
  induction fuel with
  | zero => intro pool copy pool' h; exact Option.noConfusion h
  | succ fuel ih =>
    intro pool copy pool' h
    simp only [compact_memory_loop] at h
    split at h
    · cases h; rfl
    · rw [ih _ _ _ h, compact_pass_length]

theorem allocate_total (fuel : Nat) (pool : memory) (process : Int) (size : Nat) (type : Int)
    (hn : pool.length ≤ 2147483647) (hfuel : pool.length < fuel) :
    ∃ pool', allocate fuel pool process size type = some pool' := by
  by_cases hg : size = 0 ∨ size > pool.length
  · exact ⟨pool, by rw [allocate_eq, if_pos hg]⟩
  · rcases allocate_spec pool process size fuel type (by omega) (by omega) hn hfuel with
      ⟨-, h⟩ | ⟨a, -, -, h⟩
    · exact ⟨_, h⟩
    · exact ⟨_, h⟩

theorem execute_length (fuel : Nat) (pool : memory) (c : Command) (pool' : memory)
    (h : execute fuel pool c = some pool') : pool'.length = pool.length := by
  cases c with
  | alloc process size type => exact allocate_length fuel pool process size type pool' h
  | free process =>
    simp only [execute] at h
    cases h
    exact deallocate_length pool process
  | compact => exact compact_memory_loop_length fuel pool none pool' h

theorem execute_all_length (fuel : Nat) (cmds : List Command) :
    ∀ (pool pool' : memory), execute_all fuel pool cmds = some pool' →
      pool'.length = pool.length := by
  induction cmds with
  | nil => intro pool pool' h; simp only [execute_all] at h; cases h; rfl
  | cons c cs ih =>
    intro pool pool' h
    simp only [execute_all] at h
    cases hc : execute fuel pool c with
    | none => rw [hc] at h; exact Option.noConfusion h
    | some mid =>
      rw [hc] at h
      rw [ih mid pool' h, execute_length fuel pool c mid hc]

theorem execute_total (fuel : Nat) (pool : memory) (c : Command) (hne : pool ≠ [])
    (hn : pool.length ≤ 2147483647) (hfuel : pool.length < fuel) :
    ∃ pool', execute fuel pool c = some pool' := by
  cases c with
  | alloc process size type => exact allocate_total fuel pool process size type hn hfuel
  | free process => exact ⟨_, rfl⟩
  | compact =>
    have hm := misplaced_lt_length hne
    exact ⟨_, compact_memory_eq pool fuel hne (by omega)⟩

theorem execute_all_total (fuel : Nat) (cmds : List Command) :
    ∀ pool : memory, pool ≠ [] → pool.length ≤ 2147483647 → pool.length < fuel →
      ∃ pool', execute_all fuel pool cmds = some pool' := by
  induction cmds with
  | nil => intro pool _ _ _; exact ⟨pool, rfl⟩
  | cons c cs ih =>
    intro pool hne hn hfuel
    obtain ⟨mid, hmid⟩ := execute_total fuel pool c hne hn hfuel
    have hlen := execute_length fuel pool c mid hmid
    have hne' : mid ≠ [] := by
      intro e
      rw [e] at hlen
      exact hne (List.length_eq_zero.1 hlen.symm)
    obtain ⟨pool', h⟩ := ih mid hne' (by omega) (by omega)
    exact ⟨pool', by simp only [execute_all, hmid, h]⟩

theorem new_memory_pool_eq {n : Nat} {pool : memory} (h : new_memory_pool n = some pool) :
    n ≠ 0 ∧ pool = List.replicate n UNALLOCATED := by
  unfold new_memory_pool at h
  by_cases h0 : n = 0
  · subst h0
    exact Option.noConfusion h
  · rw [new_array_eq h0] at h
    exact ⟨h0, (Option.some.inj h).symm⟩

/-! ## `allocate` on a pool longer than `2^32` -/

theorem allocate_occupied_then_free (n fuel : Nat) (process : Int)
    (hn : n + 1 < 18446744073709551616) (hfuel : n + 2 ≤ fuel)
    (hto : to_int (n : Int) = 0) :
    allocate fuel (occupied_then_free n) process 1 FIRST_FIT =
      some (set_values (occupied_then_free n) process 0 1) := by
  have hlen : (occupied_then_free n).length = n + 1 := replicate_append_length n 65 _
  have hg : ¬ (1 = 0 ∨ 1 > (occupied_then_free n).length) := by omega
  have hsel : selected fuel (occupied_then_free n) 1 FIRST_FIT = some 0 := by
    unfold selected first_fit
    rw [if_pos rfl, unallocated_pools_occupied_then_free n fuel hn hfuel, hto]
    rfl
  have hts : to_size_t 0 = 0 := by decide
  have hc : (0 : Int) ≥ 0 ∧ 0 < (occupied_then_free n).length := ⟨le_refl _, by omega⟩
  rw [allocate_eq, if_neg hg, hsel]
  simp only [hts]
  rw [if_pos hc]

/-! # The claims -/

/-- C1: on a pool of length at most INT_MAX, for a request of `size` slots with
`1 ≤ size ≤ length` and a free run of at least `size` slots somewhere, `allocate`
returns a pool that holds the process id exactly on `[a, a + size)`, where `a` is
the address its strategy selects, and agrees with the original pool elsewhere;
`a + size` is within the pool and every slot of `[a, a + size)` was FREE. -/
theorem allocate_commits_selected_range (pool : memory) (process : Int) (size fuel : Nat)
    (type : Int) (hn : (pool.length : Int) ≤ INT_MAX) (hfuel : pool.length < fuel)
    (hsize : 1 ≤ size) (hle : size ≤ pool.length)
    (hrun : ∃ s, ∀ j < size, pool[s + j]? = some UNALLOCATED) :
    ∃ (a : Nat) (pool' : memory),
      (if type = FIRST_FIT then first_fit fuel pool size
        else best_or_worst_fit fuel pool size type) = some (a : Int) ∧
      allocate fuel pool process size type = some pool' ∧
      a + size ≤ pool.length ∧
      (∀ j, a ≤ j → j < a + size → pool[j]? = some UNALLOCATED) ∧
      pool'.length = pool.length ∧
      ∀ j, pool'[j]? = if a ≤ j ∧ j < a + size then some process else pool[j]? := by
  have hn' := le_int_max hn
  obtain ⟨s, hs⟩ := hrun
  have hex := exists_hole_of_run pool s size hsize hs
  rcases allocate_spec pool process size fuel type hsize hle hn' hfuel with
    ⟨h1, -⟩ | ⟨a, h1, h2, h3⟩
  · exact absurd hex ((hole_list_eq_nil_iff pool size).1 h1)
  · obtain ⟨len, hh, hl⟩ := (mem_hole_list pool size a).1 h1
    have hlen := hh.within_pool
    refine ⟨a, set_values pool process a (a + size), h2, h3, by omega, ?_,
      set_values_length _ _ _ _, ?_⟩
    · intro j hj1 hj2
      have := hh.2.1 (j - a) (by omega)
      have e : a + (j - a) = j := by omega
      rwa [e] at this
    · intro j
      rw [set_values_getElem?]
      by_cases hj : a ≤ j ∧ j < a + size
      · have : a ≤ j ∧ j < a + size ∧ j < pool.length := by omega
        rw [if_pos this, if_pos hj]
      · have : ¬ (a ≤ j ∧ j < a + size ∧ j < pool.length) := by omega
        rw [if_neg this, if_neg hj]

/-- Instance of C1 on the pool `.A..B...`. -/
theorem allocate_commits_selected_range_witness :
    ∃ (a : Nat) (pool' : memory),
      (if BEST_FIT = FIRST_FIT then first_fit 9 sample_pool 2
        else best_or_worst_fit 9 sample_pool 2 BEST_FIT) = some (a : Int) ∧
      allocate 9 sample_pool 67 2 BEST_FIT = some pool' ∧
      a + 2 ≤ sample_pool.length ∧
      (∀ j, a ≤ j → j < a + 2 → sample_pool[j]? = some UNALLOCATED) ∧
      pool'.length = sample_pool.length ∧
      ∀ j, pool'[j]? = if a ≤ j ∧ j < a + 2 then some 67 else sample_pool[j]? :=
  allocate_commits_selected_range sample_pool 67 2 9 BEST_FIT (by decide) (by decide)
    (by decide) (by decide) ⟨5, by decide⟩

/-- C2 (counterexample): the pool of `2^31` FREE slots followed by one slot of
process `A` has no hole of `2^31 + 1` slots, yet a first-fit `allocate` of
`2^31 + 1` slots for process `B` overwrites the slot of `A`. -/
theorem allocate_long_free_pool_overwrites :
    (¬ ∃ a len, IsHole long_free_pool a len ∧ 2147483649 ≤ len) ∧
      ∃ pool', allocate 2147483650 long_free_pool 66 2147483649 FIRST_FIT = some pool' ∧
        pool'[2147483648]? = some 66 ∧ long_free_pool[2147483648]? = some 65 := by
  have hlen : long_free_pool.length = 2147483649 := by
    unfold long_free_pool free_then_occupied
    rw [replicate_append_length]
  have hlast : long_free_pool[2147483648]? = some 65 := by
    unfold long_free_pool free_then_occupied
    exact replicate_append_getElem?_eq _ _ _
  refine ⟨?_, ?_⟩
  · rintro ⟨a, len, hh, hl⟩
    have h1 := hh.within_pool
    rw [hlen] at h1
    have ha : a = 0 := by omega
    subst ha
    have := hh.2.1 2147483648 (by omega)
    rw [Nat.zero_add, hlast] at this
    exact absurd this (by decide)
  · have hg : ¬ (2147483649 = 0 ∨ 2147483649 > long_free_pool.length) := by
      rw [hlen]; norm_num
    have hsel : selected 2147483650 long_free_pool 2147483649 FIRST_FIT = some 0 := by
      unfold selected
      rw [if_pos rfl]
      exact first_fit_long_free_pool 2147483648
    have hts : to_size_t 0 = 0 := by decide
    have hc : (0 : Int) ≥ 0 ∧ 0 < long_free_pool.length := by
      rw [hlen]; exact ⟨le_refl _, by norm_num⟩
    refine ⟨set_values long_free_pool 66 0 2147483649, ?_, ?_, hlast⟩
    · rw [allocate_eq, if_neg hg, hsel]
      simp only [hts]
      rw [if_pos hc]
    · rw [set_values_getElem?, hlen]
      exact if_pos ⟨by norm_num, by norm_num, by norm_num⟩

/-- C2 (amended): `allocate` returns the pool unchanged if `size` is 0, if `size`
exceeds the pool length, or if the pool has length at most INT_MAX and no hole
of length at least `size`. -/
theorem allocate_unsatisfiable_noop (pool : memory) (process : Int) (size fuel : Nat)
    (type : Int)
    (h : size = 0 ∨ size > pool.length ∨
      ((pool.length : Int) ≤ INT_MAX ∧ pool.length < fuel ∧
        ¬ ∃ a len, IsHole pool a len ∧ size ≤ len)) :
    allocate fuel pool process size type = some pool := by
  by_cases hg : size = 0 ∨ size > pool.length
  · rw [allocate_eq, if_pos hg]
  · rcases h with h | h | ⟨hn, hfuel, hno⟩
    · exact absurd (Or.inl h) hg
    · exact absurd (Or.inr h) hg
    · rcases allocate_spec pool process size fuel type (by omega) (by omega)
        (le_int_max hn) hfuel with ⟨-, h2⟩ | ⟨a, h1, -, -⟩
      · exact h2
      · obtain ⟨len, hh, hl⟩ := (mem_hole_list pool size a).1 h1
        exact absurd ⟨a, len, hh, hl⟩ hno

/-- Instance of C2 on the pool `.A..B...`. -/
theorem allocate_unsatisfiable_noop_witness :
    allocate 9 sample_pool 67 4 WORST_FIT = some sample_pool :=
  allocate_unsatisfiable_noop sample_pool 67 4 9 WORST_FIT
    (Or.inr (Or.inr ⟨by decide, by decide, by
      rintro ⟨a, len, hh, hl⟩
      have h1 := hh.within_pool
      have h2 : sample_pool.length = 8 := by decide
      have ha : a < 5 := by omega
      have := hh.2.2.2
      have hfree := hh.2.1
      interval_cases a
      · exact absurd (hfree 1 (by omega)) (by decide)
      · exact absurd (hfree 0 (by omega)) (by decide)
      · exact absurd (hfree 2 (by omega)) (by decide)
      · exact absurd (hfree 1 (by omega)) (by decide)
      · exact absurd (hfree 0 (by omega)) (by decide)⟩))

/-- C3: on a pool of length at most INT_MAX and for `size ≥ 1`, `first_fit`
returns a value; it is `-1` exactly when no hole has length at least `size`, and
otherwise it is the start of a qualifying hole that lies at or below the start
of every qualifying hole. -/
theorem first_fit_lowest_hole (pool : memory) (size fuel : Nat) (hsize : 1 ≤ size)
    (hn : (pool.length : Int) ≤ INT_MAX) (hfuel : pool.length < fuel) :
    ∃ r : Int, first_fit fuel pool size = some r ∧
      (r = -1 ↔ ¬ ∃ a len, IsHole pool a len ∧ size ≤ len) ∧
      ((∃ a len, IsHole pool a len ∧ size ≤ len) →
        ∃ (a len : Nat), r = (a : Int) ∧ IsHole pool a len ∧ size ≤ len ∧
          ∀ a' len', IsHole pool a' len' → size ≤ len' → a ≤ a') := by
  rcases first_fit_spec pool size fuel hsize (le_int_max hn) hfuel with
    ⟨h1, h2⟩ | ⟨a, h1, h2, h3⟩
  · have hno := (hole_list_eq_nil_iff pool size).1 h1
    exact ⟨-1, h2, ⟨fun _ => hno, fun _ => rfl⟩, fun hex => absurd hex hno⟩
  · obtain ⟨len, hh, hl⟩ := (mem_hole_list pool size a).1 h1
    refine ⟨a, h2, ⟨?_, ?_⟩, ?_⟩
    · intro h; omega
    · intro h; exact absurd ⟨a, len, hh, hl⟩ h
    · intro _
      refine ⟨a, len, rfl, hh, hl, ?_⟩
      intro a' len' hh' hl'
      exact h3 a' ((mem_hole_list pool size a').2 ⟨len', hh', hl'⟩)

/-- Instance of C3 on the pool `.A..B...`. -/
theorem first_fit_lowest_hole_witness :
    ∃ r : Int, first_fit 9 sample_pool 2 = some r ∧
      (r = -1 ↔ ¬ ∃ a len, IsHole sample_pool a len ∧ 2 ≤ len) ∧
      ((∃ a len, IsHole sample_pool a len ∧ 2 ≤ len) →
        ∃ (a len : Nat), r = (a : Int) ∧ IsHole sample_pool a len ∧ 2 ≤ len ∧
          ∀ a' len', IsHole sample_pool a' len' → 2 ≤ len' → a ≤ a') :=
  first_fit_lowest_hole sample_pool 2 9 (by decide) (by decide) (by decide)

/-- C4: on a pool of length at most INT_MAX with some hole of length at least
`size ≥ 1`, `best_or_worst_fit` with `BEST_FIT` returns the start of a qualifying
hole of length `L` such that no qualifying hole is shorter than `L`, and it is
the lowest-addressed qualifying hole of length `L`. -/
theorem best_fit_smallest_hole (pool : memory) (size fuel : Nat) (hsize : 1 ≤ size)
    (hn : (pool.length : Int) ≤ INT_MAX) (hfuel : pool.length < fuel)
    (hex : ∃ a len, IsHole pool a len ∧ size ≤ len) :
    ∃ (a len : Nat), best_or_worst_fit fuel pool size BEST_FIT = some (a : Int) ∧
      IsHole pool a len ∧ size ≤ len ∧
      ∀ a' len', IsHole pool a' len' → size ≤ len' →
        len ≤ len' ∧ (len' = len → a ≤ a') := by
  rcases best_or_worst_fit_spec pool size fuel BEST_FIT hsize (le_int_max hn) hfuel with
    ⟨h1, -⟩ | ⟨a, h1, h2, h3, -, h5⟩
  · exact absurd hex ((hole_list_eq_nil_iff pool size).1 h1)
  · obtain ⟨len, hh, hl⟩ := (mem_hole_list pool size a).1 h1
    refine ⟨a, len, h2, hh, hl, ?_⟩
    intro a' len' hh' hl'
    have hm : a' ∈ hole_list pool size := (mem_hole_list pool size a').2 ⟨len', hh', hl'⟩
    rw [hh.len_eq, hh'.len_eq]
    exact ⟨h3 rfl a' hm, fun e => h5 a' hm e⟩

/-- Instance of C4 on the pool `.A..B...`. -/
theorem best_fit_smallest_hole_witness :
    ∃ (a len : Nat), best_or_worst_fit 9 sample_pool 2 BEST_FIT = some (a : Int) ∧
      IsHole sample_pool a len ∧ 2 ≤ len ∧
      ∀ a' len', IsHole sample_pool a' len' → 2 ≤ len' →
        len ≤ len' ∧ (len' = len → a ≤ a') :=
  best_fit_smallest_hole sample_pool 2 9 (by decide) (by decide) (by decide)
    ⟨2, 2, by decide, by decide⟩

/-- C5: on a pool of length at most INT_MAX with some hole of length at least
`size ≥ 1`, `best_or_worst_fit` with `WORST_FIT` returns the start of a hole whose
length is the maximum over all holes of the pool, and it is the lowest-addressed
hole of that length. -/
theorem worst_fit_largest_hole (pool : memory) (size fuel : Nat) (hsize : 1 ≤ size)
    (hn : (pool.length : Int) ≤ INT_MAX) (hfuel : pool.length < fuel)
    (hex : ∃ a len, IsHole pool a len ∧ size ≤ len) :
    ∃ (a len : Nat), best_or_worst_fit fuel pool size WORST_FIT = some (a : Int) ∧
      IsHole pool a len ∧ size ≤ len ∧
      ∀ a' len', IsHole pool a' len' → len' ≤ len ∧ (len' = len → a ≤ a') := by
  have hw : WORST_FIT ≠ BEST_FIT := by decide
  rcases best_or_worst_fit_spec pool size fuel WORST_FIT hsize (le_int_max hn) hfuel with
    ⟨h1, -⟩ | ⟨a, h1, h2, -, h4, h5⟩
  · exact absurd hex ((hole_list_eq_nil_iff pool size).1 h1)
  · obtain ⟨len, hh, hl⟩ := (mem_hole_list pool size a).1 h1
    refine ⟨a, len, h2, hh, hl, ?_⟩
    intro a' len' hh'
    by_cases hq : size ≤ len'
    · have hm : a' ∈ hole_list pool size := (mem_hole_list pool size a').2 ⟨len', hh', hq⟩
      rw [hh.len_eq, hh'.len_eq]
      exact ⟨h4 hw a' hm, fun e => h5 a' hm e⟩
    · exact ⟨by omega, fun e => by omega⟩

/-- Instance of C5 on the pool `.A..B...`. -/
theorem worst_fit_largest_hole_witness :
    ∃ (a len : Nat), best_or_worst_fit 9 sample_pool 2 WORST_FIT = some (a : Int) ∧
      IsHole sample_pool a len ∧ 2 ≤ len ∧
      ∀ a' len', IsHole sample_pool a' len' → len' ≤ len ∧ (len' = len → a ≤ a') :=
  worst_fit_largest_hole sample_pool 2 9 (by decide) (by decide) (by decide)
    ⟨2, 2, by decide, by decide⟩

/-- C6: for every (non-empty) pool and fuel beyond the pool length,
`compact_memory` returns the stable partition of the pool: the occupied tags in
their original order followed by one FREE slot per FREE slot of the pool; so
the occupied tags, their order and their number are unchanged, and so is the
length. -/
theorem compact_memory_stable_partition (pool : memory) (fuel : Nat) (hne : pool ≠ [])
    (hfuel : pool.length < fuel) :
    ∃ result, compact_memory fuel pool = some result ∧
      result = stable_partition pool ∧
      result.filter (fun tag => decide (tag ≠ UNALLOCATED)) =
        pool.filter (fun tag => decide (tag ≠ UNALLOCATED)) ∧
      result.count UNALLOCATED = pool.count UNALLOCATED ∧
      result.length = pool.length := by
  have hm := misplaced_lt_length hne
  refine ⟨stable_partition pool, compact_memory_eq pool fuel hne (by omega), rfl,
    stable_partition_filter pool, ?_, stable_partition_length pool⟩
  unfold stable_partition
  rw [List.count_append, List.count_replicate_self]
  have : List.count UNALLOCATED
      (List.filter (fun tag => decide (tag ≠ UNALLOCATED)) pool) = 0 := by
    rw [List.count_eq_zero]
    intro h
    have := (List.mem_filter.1 h).2
    simp at this
  omega

/-- Instance of C6 on the pool `.A.B..C`. -/
theorem compact_memory_stable_partition_witness :
    ∃ result, compact_memory 8 (ofString ".A.B..C") = some result ∧
      result = stable_partition (ofString ".A.B..C") ∧
      result.filter (fun tag => decide (tag ≠ UNALLOCATED)) =
        (ofString ".A.B..C").filter (fun tag => decide (tag ≠ UNALLOCATED)) ∧
      result.count UNALLOCATED = (ofString ".A.B..C").count UNALLOCATED ∧
      result.length = (ofString ".A.B..C").length :=
  compact_memory_stable_partition (ofString ".A.B..C") 8 (by decide) (by decide)

/-- C7: after `deallocate(pool, p)` the pool has the same length, each slot that
held `p` holds FREE and every other slot holds its previous tag; when no slot
holds `p` the pool is unchanged. -/
theorem deallocate_frees_exactly (pool : memory) (p : Int) :
    (deallocate pool p).length = pool.length ∧
      (∀ i : Nat, (deallocate pool p)[i]? =
        (pool[i]?).map (fun tag => if tag = p then UNALLOCATED else tag)) ∧
      ((∀ tag ∈ pool, tag ≠ p) → deallocate pool p = pool) := by
  refine ⟨deallocate_length pool p, deallocate_getElem? pool p, ?_⟩
  intro h
  rw [deallocate_eq_map]
  conv_rhs => rw [← List.map_id pool]
  apply List.map_congr_left
  intro tag ht
  rw [if_neg (h tag ht)]
  rfl

/-- Instance of C7 on the pool `AAAAABBB..`, for an owner and for a stranger. -/
theorem deallocate_frees_exactly_witness :
    deallocate (ofString "AAAAABBB..") 65 = ofString ".....BBB.." ∧
      deallocate (ofString "AAAAABBB..") 67 = ofString "AAAAABBB.." :=
  ⟨by
    apply List.ext_getElem?
    intro i
    rw [(deallocate_frees_exactly (ofString "AAAAABBB..") 65).2.1 i]
    by_cases hi : i < 10
    · interval_cases i <;> decide
    · have h1 : (ofString "AAAAABBB..").length ≤ i := by
        have : (ofString "AAAAABBB..").length = 10 := by decide
        omega
      have h2 : (ofString ".....BBB..").length ≤ i := by
        have : (ofString ".....BBB..").length = 10 := by decide
        omega
      rw [List.getElem?_eq_none h1, List.getElem?_eq_none h2]
      rfl,
   (deallocate_frees_exactly (ofString "AAAAABBB..") 67).2.2 (by decide)⟩

/-- C8 (counterexample): on the pool of `2^31 + 1` slots whose only FREE slot is
the last one, `unallocated_pools` with `min_size = 1` returns the single entry
`-2147483648`, while the only hole starts at address `2147483648`. -/
theorem unallocated_pools_long_pool_wraps :
    unallocated_pools 2147483650 long_pool 1 = some (some [-2147483648]) ∧
      IsHole long_pool 2147483648 1 ∧ ((2147483648 : Nat) : Int) ∉ [(-2147483648 : Int)] := by
  refine ⟨?_, isHole_occupied_then_free 2147483648 (by norm_num), by decide⟩
  have := unallocated_pools_occupied_then_free 2147483648 2147483650 (by norm_num)
    (by norm_num)
  rw [to_int_two_pow_31] at this
  exact this

/-- C8 (amended): on a pool of length at most INT_MAX and for `min_size ≥ 1`,
`unallocated_pools` returns a result whose entries are exactly the start
addresses of the holes of length at least `min_size`; the result is `NULL`
exactly when no hole qualifies. -/
theorem unallocated_pools_exact (pool : memory) (min_size fuel : Nat) (hsize : 1 ≤ min_size)
    (hn : (pool.length : Int) ≤ INT_MAX) (hfuel : pool.length < fuel) :
    ∃ r : Option array, unallocated_pools fuel pool min_size = some r ∧
      (∀ x : Int, (∃ holes, r = some holes ∧ x ∈ holes) ↔
        ∃ (a len : Nat), x = (a : Int) ∧ IsHole pool a len ∧ min_size ≤ len) ∧
      (r = none ↔ ¬ ∃ a len, IsHole pool a len ∧ min_size ≤ len) := by
  refine ⟨_, unallocated_pools_eq pool min_size fuel hsize (le_int_max hn) hfuel, ?_, ?_⟩
  · intro x
    by_cases hL : hole_list pool min_size = []
    · rw [if_pos hL]
      have hno := (hole_list_eq_nil_iff pool min_size).1 hL
      constructor
      · rintro ⟨holes, h, -⟩; exact Option.noConfusion h
      · rintro ⟨a, len, -, hh, hl⟩; exact absurd ⟨a, len, hh, hl⟩ hno
    · rw [if_neg hL]
      constructor
      · rintro ⟨holes, h, hx⟩
        cases h
        obtain ⟨a, ha, rfl⟩ := List.mem_map.1 hx
        obtain ⟨len, hh, hl⟩ := (mem_hole_list pool min_size a).1 ha
        exact ⟨a, len, rfl, hh, hl⟩
      · rintro ⟨a, len, rfl, hh, hl⟩
        exact ⟨_, rfl, List.mem_map.2 ⟨a, (mem_hole_list pool min_size a).2 ⟨len, hh, hl⟩, rfl⟩⟩
  · rw [← hole_list_eq_nil_iff]
    constructor
    · intro h
      by_contra hL
      rw [if_neg hL] at h
      exact Option.noConfusion h
    · intro hL
      rw [if_pos hL]

/-- Instance of C8 on the pool `.A..B...`. -/
theorem unallocated_pools_exact_witness :
    ∃ r : Option array, unallocated_pools 9 sample_pool 2 = some r ∧
      (∀ x : Int, (∃ holes, r = some holes ∧ x ∈ holes) ↔
        ∃ (a len : Nat), x = (a : Int) ∧ IsHole sample_pool a len ∧ 2 ≤ len) ∧
      (r = none ↔ ¬ ∃ a len, IsHole sample_pool a len ∧ 2 ≤ len) :=
  unallocated_pools_exact sample_pool 2 9 (by decide) (by decide) (by decide)

/-- C9 (counterexample): on the same pool with `k = 1`, `unallocated_pools`
returns an address that is not the start of a run of at least one FREE slot. -/
theorem unallocated_pools_long_pool_not_a_run :
    ∃ holes, unallocated_pools 2147483650 long_pool 1 = some (some holes) ∧
      ∃ x ∈ holes, ¬ ∃ a : Nat, x = (a : Int) ∧
        ∀ j < 1, long_pool[a + j]? = some UNALLOCATED := by
  have := unallocated_pools_occupied_then_free 2147483648 2147483650 (by norm_num)
    (by norm_num)
  rw [to_int_two_pow_31] at this
  refine ⟨[-2147483648], this, -2147483648, List.mem_singleton.2 rfl, ?_⟩
  rintro ⟨a, ha, -⟩
  omega

/-- C9 (amended): on a pool of length at most INT_MAX and for `k ≥ 1`, the
addresses returned by `unallocated_pools` are strictly increasing, each starts a
hole (a run of FREE slots bounded by an occupied slot or a pool end on both
sides) of length at least `k`, and each later returned address lies beyond the
occupied slot that follows the hole. -/
theorem unallocated_pools_ascending_separated (pool : memory) (k fuel : Nat) (hk : 1 ≤ k)
    (hn : (pool.length : Int) ≤ INT_MAX) (hfuel : pool.length < fuel) :
    ∃ r : Option array, unallocated_pools fuel pool k = some r ∧
      ∀ holes, r = some holes →
        holes.Pairwise (fun x y => x < y) ∧
        ∀ x ∈ holes, ∃ (a len : Nat), x = (a : Int) ∧ k ≤ len ∧ IsHole pool a len ∧
          ∀ y ∈ holes, x < y → pool[a + len]? ≠ some UNALLOCATED ∧ (a + len : Int) < y := by
  refine ⟨_, unallocated_pools_eq pool k fuel hk (le_int_max hn) hfuel, ?_⟩
  intro holes hr
  by_cases hL : hole_list pool k = []
  · rw [if_pos hL] at hr
    exact Option.noConfusion hr
  · rw [if_neg hL] at hr
    cases hr
    refine ⟨?_, ?_⟩
    · rw [List.pairwise_map]
      exact (hole_list_sorted pool k).imp (fun h => Int.ofNat_lt.2 h)
    · intro x hx
      obtain ⟨a, ha, rfl⟩ := List.mem_map.1 hx
      obtain ⟨len, hh, hl⟩ := (mem_hole_list pool k a).1 ha
      refine ⟨a, len, rfl, hl, hh, ?_⟩
      intro y hy hlt
      obtain ⟨b, hb, rfl⟩ := List.mem_map.1 hy
      obtain ⟨len', hh', -⟩ := (mem_hole_list pool k b).1 hb
      have hab : a < b := Int.ofNat_lt.1 hlt
      have := hh.separated hh' hab
      exact ⟨hh.2.2.2, Int.ofNat_lt.2 this⟩

/-- Instance of C9 on the pool `.A..B...`. -/
theorem unallocated_pools_ascending_separated_witness :
    ∃ r : Option array, unallocated_pools 9 sample_pool 1 = some r ∧
      ∀ holes, r = some holes →
        holes.Pairwise (fun x y => x < y) ∧
        ∀ x ∈ holes, ∃ (a len : Nat), x = (a : Int) ∧ 1 ≤ len ∧ IsHole sample_pool a len ∧
          ∀ y ∈ holes, x < y →
            sample_pool[a + len]? ≠ some UNALLOCATED ∧ (a + len : Int) < y :=
  unallocated_pools_ascending_separated sample_pool 1 9 (by decide) (by decide) (by decide)

/-- C10 (counterexample): process `A` owns slot 0 of `A....`; allocating two
more slots to `A` (first fit) and then deallocating `A` gives `.....`, not the
pool before the allocate. -/
theorem allocate_deallocate_loses_prior_slots :
    allocate 6 (ofString "A....") 65 2 FIRST_FIT = some (ofString "AAA..") ∧
      deallocate (ofString "AAA..") 65 = ofString "....." ∧
      ofString "....." ≠ ofString "A...." := by
  decide

/-- C10 (amended): on a pool of length at most INT_MAX in which no slot holds
`p`, `allocate` for `p` (any size, any strategy) followed by `deallocate` of `p`
gives back exactly the pool before the allocate. -/
theorem allocate_deallocate_roundtrip (pool : memory) (p : Int) (size fuel : Nat)
    (type : Int) (hn : (pool.length : Int) ≤ INT_MAX) (hfuel : pool.length < fuel)
    (hfresh : ∀ tag ∈ pool, tag ≠ p) :
    ∃ pool', allocate fuel pool p size type = some pool' ∧ deallocate pool' p = pool := by
  have hsame : deallocate pool p = pool := by
    rw [deallocate_eq_map]
    conv_rhs => rw [← List.map_id pool]
    apply List.map_congr_left
    intro tag ht
    rw [if_neg (hfresh tag ht)]
    rfl
  by_cases hg : size = 0 ∨ size > pool.length
  · exact ⟨pool, by rw [allocate_eq, if_pos hg], hsame⟩
  · rcases allocate_spec pool p size fuel type (by omega) (by omega) (le_int_max hn) hfuel
      with ⟨-, h2⟩ | ⟨a, h1, -, h3⟩
    · exact ⟨pool, h2, hsame⟩
    · refine ⟨_, h3, ?_⟩
      obtain ⟨len, hh, hl⟩ := (mem_hole_list pool size a).1 h1
      apply List.ext_getElem?
      intro j
      rw [deallocate_getElem?, set_values_getElem?]
      by_cases hj : a ≤ j ∧ j < a + size ∧ j < pool.length
      · rw [if_pos hj]
        have := hh.2.1 (j - a) (by omega)
        have e : a + (j - a) = j := by omega
        rw [e] at this
        rw [this]
        simp
      · rw [if_neg hj]
        cases hc : pool[j]? with
        | none => rfl
        | some tag =>
          have hne : tag ≠ p := hfresh tag (List.getElem?_mem hc)
          simp [hne]

/-- Instance of C10 (amended) on the pool `.A..B...`. -/
theorem allocate_deallocate_roundtrip_witness :
    ∃ pool', allocate 9 sample_pool 67 2 BEST_FIT = some pool' ∧
      deallocate pool' 67 = sample_pool :=
  allocate_deallocate_roundtrip sample_pool 67 2 9 BEST_FIT (by decide) (by decide)
    (by decide)

/-- C11: `compact_memory` is idempotent: on a (non-empty) pool it returns a pool
on which `compact_memory` returns that same pool, every slot unchanged. -/
theorem compact_memory_idempotent (pool : memory) (fuel : Nat) (hne : pool ≠ [])
    (hfuel : pool.length < fuel) :
    ∃ compacted, compact_memory fuel pool = some compacted ∧
      compact_memory fuel compacted = some compacted := by
  have hm := misplaced_lt_length hne
  refine ⟨stable_partition pool, compact_memory_eq pool fuel hne (by omega), ?_⟩
  have hne' := stable_partition_ne_nil hne
  have hm' := misplaced_lt_length hne'
  have hlen := stable_partition_length pool
  rw [compact_memory_eq (stable_partition pool) fuel hne' (by omega), stable_partition_idem]

/-- Instance of C11 on the pool `.A.B..C`. -/
theorem compact_memory_idempotent_witness :
    ∃ compacted, compact_memory 8 (ofString ".A.B..C") = some compacted ∧
      compact_memory 8 compacted = some compacted :=
  compact_memory_idempotent (ofString ".A.B..C") 8 (by decide) (by decide)

/-- C12: on a (non-empty) pool the fixed-point loop of `compact_memory` exits
after `n` passes with `1 ≤ n ≤ (number of FREE slots) + 1`: fuel for that many
passes and the final comparison is enough, the loop returns a pool, and one more
pass over that pool leaves it as it is. -/
theorem compact_memory_terminates (pool : memory) (fuel : Nat) (hne : pool ≠ [])
    (hfuel : pool.count UNALLOCATED + 2 ≤ fuel) :
    ∃ n result, compact_memory_passes fuel pool none = some n ∧
      1 ≤ n ∧ n ≤ pool.count UNALLOCATED + 1 ∧
      compact_memory fuel pool = some result ∧
      compact_pass (result.length - 1) result 1 = result := by
  have hm := misplaced_le_count pool
  obtain ⟨n, h1, h2, h3⟩ := compact_memory_passes_eq pool fuel hne (by omega)
  refine ⟨n, stable_partition pool, h3, h1, by omega,
    compact_memory_eq pool fuel hne (by omega), ?_⟩
  rw [compact_pass_eq_shift, shift_stable_partition]

/-- Instance of C12 on the pool `.A.B..C` (four FREE slots, fuel 6). -/
theorem compact_memory_terminates_witness :
    ∃ n result, compact_memory_passes 6 (ofString ".A.B..C") none = some n ∧
      1 ≤ n ∧ n ≤ (ofString ".A.B..C").count UNALLOCATED + 1 ∧
      compact_memory 6 (ofString ".A.B..C") = some result ∧
      compact_pass (result.length - 1) result 1 = result :=
  compact_memory_terminates (ofString ".A.B..C") 6 (by decide) (by decide)

/-- C13 (counterexample): on the one-slot pool `A` with `min_size = 0` one
iteration of the scan entered at index 0 comes back to index 0, and no amount
of fuel lets `unallocated_pools` return. -/
theorem unallocated_pools_min_size_zero_stuck :
    (unallocated_pools_body [65] 0 0 0 [0]).1 = 0 ∧
      ¬ ∃ fuel r, unallocated_pools fuel [65] 0 = some r := by
  refine ⟨by decide, ?_⟩
  rintro ⟨fuel, r, h⟩
  unfold unallocated_pools at h
  rw [new_array_eq (by decide)] at h
  simp only [unallocated_pools_loop_stuck] at h
  exact Option.noConfusion h

/-- C13 (amended): on a pool of length at most INT_MAX and for `min_size ≥ 1`,
every iteration of the scan loop of `unallocated_pools` moves the index strictly
forward without passing the pool end and keeps the number of recorded addresses
at most the index; the loop is the repetition of that body, it returns, and the
number of recorded addresses is at most the pool length. -/
theorem unallocated_pools_scan_terminates (pool : memory) (min_size fuel : Nat)
    (hsize : 1 ≤ min_size) (hn : (pool.length : Int) ≤ INT_MAX) (hfuel : pool.length < fuel) :
    (∀ (i count : Nat) (temp : array), i < pool.length → count ≤ i →
      i < (unallocated_pools_body pool min_size i count temp).1 ∧
      (unallocated_pools_body pool min_size i count temp).1 ≤ pool.length ∧
      (unallocated_pools_body pool min_size i count temp).2.1 ≤
        (unallocated_pools_body pool min_size i count temp).1) ∧
    (∀ (k i count : Nat) (temp : array),
      unallocated_pools_loop pool min_size (k + 1) i count temp =
        if i < pool.length then
          unallocated_pools_loop pool min_size k
            (unallocated_pools_body pool min_size i count temp).1
            (unallocated_pools_body pool min_size i count temp).2.1
            (unallocated_pools_body pool min_size i count temp).2.2
        else some (count, temp)) ∧
    (∃ count temp, unallocated_pools_loop pool min_size fuel 0 0
        (List.replicate pool.length 0) = some (count, temp) ∧ count ≤ pool.length) ∧
    ∃ r, unallocated_pools fuel pool min_size = some r := by
  have hn' := le_int_max hn
  refine ⟨fun i count temp hi hc =>
      unallocated_pools_body_advances pool min_size i count temp hsize hn' hi hc,
    fun k i count temp => unallocated_pools_loop_succ pool min_size k i count temp, ?_,
    ⟨_, unallocated_pools_eq pool min_size fuel hsize hn' hfuel⟩⟩
  obtain ⟨temp', h1, -, -⟩ := unallocated_pools_loop_spec pool min_size hsize hn' fuel 0 0
    (List.replicate pool.length 0) (by omega) (le_refl _) (by simp) (Or.inl rfl)
  refine ⟨_, temp', h1, ?_⟩
  have := hole_list_length_le pool min_size
  unfold hole_list at this
  omega

/-- Instance of C13 (amended) on the pool `.A..B...` with `min_size = 2`. -/
theorem unallocated_pools_scan_terminates_witness :
    (∀ (i count : Nat) (temp : array), i < sample_pool.length → count ≤ i →
      i < (unallocated_pools_body sample_pool 2 i count temp).1 ∧
      (unallocated_pools_body sample_pool 2 i count temp).1 ≤ sample_pool.length ∧
      (unallocated_pools_body sample_pool 2 i count temp).2.1 ≤
        (unallocated_pools_body sample_pool 2 i count temp).1) ∧
    (∀ (k i count : Nat) (temp : array),
      unallocated_pools_loop sample_pool 2 (k + 1) i count temp =
        if i < sample_pool.length then
          unallocated_pools_loop sample_pool 2 k
            (unallocated_pools_body sample_pool 2 i count temp).1
            (unallocated_pools_body sample_pool 2 i count temp).2.1
            (unallocated_pools_body sample_pool 2 i count temp).2.2
        else some (count, temp)) ∧
    (∃ count temp, unallocated_pools_loop sample_pool 2 9 0 0
        (List.replicate sample_pool.length 0) = some (count, temp) ∧
        count ≤ sample_pool.length) ∧
    ∃ r, unallocated_pools 9 sample_pool 2 = some r :=
  unallocated_pools_scan_terminates sample_pool 2 9 (by decide) (by decide) (by decide)

/-- C14: the scenario on a fresh pool of size 10: `A` gets five slots by first
fit, `B` three by first fit, `A` is deallocated, and a worst-fit request of
three slots for `D` on `.....BBB..` is placed at address 0. -/
theorem scenario_first_fit_then_worst_fit :
    new_memory_pool 10 = some (ofString "..........") ∧
      allocate 11 (ofString "..........") 65 5 FIRST_FIT = some (ofString "AAAAA.....") ∧
      allocate 11 (ofString "AAAAA.....") 66 3 FIRST_FIT = some (ofString "AAAAABBB..") ∧
      deallocate (ofString "AAAAABBB..") 65 = ofString ".....BBB.." ∧
      best_or_worst_fit 11 (ofString ".....BBB..") 3 WORST_FIT = some 0 ∧
      allocate 11 (ofString ".....BBB..") 68 3 WORST_FIT = some (ofString "DDD..BBB..") := by
  decide

/-- C15 (counterexample): a best-fit request of four slots for `C` on
`.....BBB..` gives `CCCC.BBB..`, which is not `CCCCCBBB..`. -/
theorem scenario_best_fit_commits_four_slots :
    allocate 11 (ofString ".....BBB..") 67 4 BEST_FIT = some (ofString "CCCC.BBB..") ∧
      ofString "CCCC.BBB.." ≠ ofString "CCCCCBBB.." := by
  decide

/-- C15 (amended): on `.....BBB..` a best-fit request of four slots for `C`
picks address 0 and the pool becomes `CCCC.BBB..`; `compact_memory` turns that
pool into `CCCCBBB...` (and leaves the pool `CCCCCBBB..` as it is). -/
theorem scenario_best_fit_then_compact :
    best_or_worst_fit 11 (ofString ".....BBB..") 4 BEST_FIT = some 0 ∧
      allocate 11 (ofString ".....BBB..") 67 4 BEST_FIT = some (ofString "CCCC.BBB..") ∧
      compact_memory 11 (ofString "CCCC.BBB..") = some (ofString "CCCCBBB...") ∧
      compact_memory 11 (ofString "CCCCCBBB..") = some (ofString "CCCCCBBB..") := by
  decide

/-- C16: `new_array(0, fill)` is `NULL` for every `fill`, so `new_memory_pool(0)`
yields no pool; for `n ≥ 1`, `new_memory_pool(n)` returns a pool of length
exactly `n` in which every slot holds FREE. -/
theorem new_memory_pool_all_free (n : Nat) (fill : Int) :
    new_array 0 fill = none ∧ new_memory_pool 0 = none ∧
      (1 ≤ n → ∃ pool, new_memory_pool n = some pool ∧ pool.length = n ∧
        ∀ j < n, pool[j]? = some UNALLOCATED) := by
  refine ⟨rfl, rfl, ?_⟩
  intro hn
  refine ⟨List.replicate n UNALLOCATED, ?_, List.length_replicate _ _, ?_⟩
  · unfold new_memory_pool
    exact new_array_eq (by omega) UNALLOCATED
  · intro j hj
    rw [List.getElem?_replicate, if_pos hj]

/-- Instance of C16 for `n = 10`. -/
theorem new_memory_pool_all_free_witness :
    ∃ pool, new_memory_pool 10 = some pool ∧ pool.length = 10 ∧
      ∀ j < 10, pool[j]? = some UNALLOCATED :=
  (new_memory_pool_all_free 10 0).2.2 (by decide)

/-- C17: `allocate`, `deallocate` and `compact_memory` return pools of the length
they were given, so every pool reached from `new_memory_pool(n)` by a sequence
of these calls has length `n` (and for `n` at most INT_MAX and fuel beyond `n`
every such sequence does return a pool). -/
theorem pool_length_invariant (n fuel : Nat) (pool0 : memory)
    (h0 : new_memory_pool n = some pool0) :
    (∀ (pool : memory) (process : Int) (size : Nat) (type : Int) (pool' : memory),
      allocate fuel pool process size type = some pool' → pool'.length = pool.length) ∧
    (∀ (pool : memory) (process : Int), (deallocate pool process).length = pool.length) ∧
    (∀ (pool pool' : memory), compact_memory fuel pool = some pool' →
      pool'.length = pool.length) ∧
    (∀ (cmds : List Command) (pool' : memory),
      execute_all fuel pool0 cmds = some pool' → pool'.length = n) ∧
    ((n : Int) ≤ INT_MAX → n < fuel →
      ∀ cmds : List Command, ∃ pool', execute_all fuel pool0 cmds = some pool' ∧
        pool'.length = n) := by
  obtain ⟨hn0, rfl⟩ := new_memory_pool_eq h0
  have hlen : (List.replicate n UNALLOCATED).length = n := List.length_replicate _ _
  refine ⟨allocate_length fuel, deallocate_length,
    fun pool pool' h => compact_memory_loop_length fuel pool none pool' h, ?_, ?_⟩
  · intro cmds pool' h
    rw [execute_all_length fuel cmds _ pool' h, hlen]
  · intro hn hfuel cmds
    have hne : List.replicate n UNALLOCATED ≠ [] := by
      intro e
      rw [e] at hlen
      exact hn0 hlen.symm
    obtain ⟨pool', h⟩ := execute_all_total fuel cmds (List.replicate n UNALLOCATED) hne
      (by rw [hlen]; exact le_int_max hn) (by rw [hlen]; exact hfuel)
    exact ⟨pool', h, by rw [execute_all_length fuel cmds _ pool' h, hlen]⟩

/-- Instance of C17: four calls on a fresh pool of ten slots. -/
theorem pool_length_invariant_witness :
    ∃ pool', execute_all 11 (ofString "..........")
        [Command.alloc 65 5 FIRST_FIT, Command.alloc 66 3 BEST_FIT, Command.free 65,
          Command.compact] = some pool' ∧ pool'.length = 10 :=
  (pool_length_invariant 10 11 (ofString "..........") (by decide)).2.2.2.2
    (by decide) (by decide) _

/-- C18: with any selector other than `BEST_FIT`, `best_or_worst_fit` returns what
it returns with `WORST_FIT`; so `allocate` with a selector that is neither
`FIRST_FIT` nor `BEST_FIT` does what it does with `WORST_FIT`. -/
theorem best_or_worst_fit_defaults_to_worst (fuel : Nat) (pool : memory) (process : Int)
    (size : Nat) (type : Int) :
    (type ≠ BEST_FIT →
      best_or_worst_fit fuel pool size type = best_or_worst_fit fuel pool size WORST_FIT) ∧
    (type ≠ FIRST_FIT → type ≠ BEST_FIT →
      allocate fuel pool process size type = allocate fuel pool process size WORST_FIT) := by
  have hw : WORST_FIT ≠ BEST_FIT := by decide
  have hwf : WORST_FIT ≠ FIRST_FIT := by decide
  have hb : type ≠ BEST_FIT →
      best_or_worst_fit fuel pool size type = best_or_worst_fit fuel pool size WORST_FIT := by
    intro h
    unfold best_or_worst_fit
    simp only [if_neg h, if_neg hw]
  refine ⟨hb, ?_⟩
  intro hf hbest
  rw [allocate_eq, allocate_eq]
  unfold selected
  rw [if_neg hf, if_neg hwf, hb hbest]

/-- Instance of C18 for the selector `X` on the pool `.A..B...`. -/
theorem best_or_worst_fit_defaults_to_worst_witness :
    best_or_worst_fit 9 sample_pool 2 88 = best_or_worst_fit 9 sample_pool 2 WORST_FIT ∧
      allocate 9 sample_pool 67 2 88 = allocate 9 sample_pool 67 2 WORST_FIT :=
  ⟨(best_or_worst_fit_defaults_to_worst 9 sample_pool 67 2 88).1 (by decide),
   (best_or_worst_fit_defaults_to_worst 9 sample_pool 67 2 88).2 (by decide) (by decide)⟩

/-- C19: for `end ≤ length` (and so for every `start ≤ end ≤ length`),
`set_values` keeps the length, writes `value`
to every slot of `[start, end)` and leaves every other slot (slot `end`
included) as it was; with `end ≤ start` it changes nothing. -/
theorem set_values_half_open (source : array) (value : Int) (start end_ : Nat)
    (hel : end_ ≤ source.length) :
    (set_values source value start end_).length = source.length ∧
      (∀ j, start ≤ j → j < end_ → (set_values source value start end_)[j]? = some value) ∧
      (∀ j, j < start ∨ end_ ≤ j →
        (set_values source value start end_)[j]? = source[j]?) ∧
      (∀ s e, e ≤ s → set_values source value s e = source) := by
  refine ⟨set_values_length _ _ _ _, ?_, ?_, ?_⟩
  · intro j h1 h2
    rw [set_values_getElem?, if_pos ⟨h1, h2, by omega⟩]
  · intro j hj
    have : ¬ (start ≤ j ∧ j < end_ ∧ j < source.length) := by omega
    rw [set_values_getElem?, if_neg this]
  · intro s e hes
    apply List.ext_getElem?
    intro j
    have : ¬ (s ≤ j ∧ j < e ∧ j < source.length) := by omega
    rw [set_values_getElem?, if_neg this]

/-- Instance of C19: slots 2 and 3 of `.A..B...` are set to `C`. -/
theorem set_values_half_open_witness :
    (set_values sample_pool 67 2 4).length = sample_pool.length ∧
      (∀ j, 2 ≤ j → j < 4 → (set_values sample_pool 67 2 4)[j]? = some 67) ∧
      (∀ j, j < 2 ∨ 4 ≤ j → (set_values sample_pool 67 2 4)[j]? = sample_pool[j]?) ∧
      (∀ s e, e ≤ s → set_values sample_pool 67 s e = sample_pool) :=
  set_values_half_open sample_pool 67 2 4 (by decide)

/-- C20 (counterexample): on the pool of `2^32` slots of process `A` followed by
one FREE slot, a first-fit `allocate` of one slot for `B` is committed at
address 0, so `deallocate` of `B` afterwards leaves slot 0 FREE, while
`deallocate` of `B` on the original pool leaves it to `A`. -/
theorem allocate_deallocate_very_long_pool_differs :
    ∃ pool', allocate 4294967298 very_long_pool 66 1 FIRST_FIT = some pool' ∧
      (deallocate pool' 66)[0]? = some UNALLOCATED ∧
      (deallocate very_long_pool 66)[0]? = some 65 := by
  have hfirst : very_long_pool[0]? = some 65 := by
    unfold very_long_pool occupied_then_free
    exact replicate_append_getElem?_lt _ _ _ (by norm_num)
  have hlen : very_long_pool.length = 4294967297 := by
    unfold very_long_pool occupied_then_free
    rw [replicate_append_length]
  refine ⟨_, allocate_occupied_then_free 4294967296 4294967298 66 (by norm_num)
    (by norm_num) (by decide), ?_, ?_⟩
  · have e : set_values (occupied_then_free 4294967296) 66 0 1 =
        set_values very_long_pool 66 0 1 := rfl
    rw [e, deallocate_getElem?, set_values_getElem?, hlen,
      if_pos ⟨by norm_num, by norm_num, by norm_num⟩]
    rfl
  · rw [deallocate_getElem?, hfirst]
    rfl

/-- C20 (amended): on a pool of length at most INT_MAX, for every process id
`p`, size and strategy, `deallocate` of `p` after `allocate` for `p` gives the
same pool as `deallocate` of `p` on the original pool, whether or not `p` owned
slots before and whether or not the request could be placed. -/
theorem deallocate_after_allocate (pool : memory) (p : Int) (size fuel : Nat) (type : Int)
    (hn : (pool.length : Int) ≤ INT_MAX) (hfuel : pool.length < fuel) :
    ∃ pool', allocate fuel pool p size type = some pool' ∧
      deallocate pool' p = deallocate pool p := by
  by_cases hg : size = 0 ∨ size > pool.length
  · exact ⟨pool, by rw [allocate_eq, if_pos hg], rfl⟩
  · rcases allocate_spec pool p size fuel type (by omega) (by omega) (le_int_max hn) hfuel
      with ⟨-, h2⟩ | ⟨a, h1, -, h3⟩
    · exact ⟨pool, h2, rfl⟩
    · refine ⟨_, h3, ?_⟩
      obtain ⟨len, hh, hl⟩ := (mem_hole_list pool size a).1 h1
      apply List.ext_getElem?
      intro j
      rw [deallocate_getElem?, deallocate_getElem?, set_values_getElem?]
      by_cases hj : a ≤ j ∧ j < a + size ∧ j < pool.length
      · rw [if_pos hj]
        have := hh.2.1 (j - a) (by omega)
        have e : a + (j - a) = j := by omega
        rw [e] at this
        rw [this]
        simp only [Option.map_some', if_true]
        split <;> rfl
      · rw [if_neg hj]

/-- Instance of C20 (amended): process `A` already owns a slot of `.A..B...`. -/
theorem deallocate_after_allocate_witness :
    ∃ pool', allocate 9 sample_pool 65 2 FIRST_FIT = some pool' ∧
      deallocate pool' 65 = deallocate sample_pool 65 :=
  deallocate_after_allocate sample_pool 65 2 9 FIRST_FIT (by decide) (by decide)

/-- C21: on a pool of length at most INT_MAX and for `size ≥ 1`, `first_fit` and
`best_or_worst_fit` (under `BEST_FIT` and under `WORST_FIT`) all return, and one
of them returns `-1` exactly when the others do; whenever `unallocated_pools`
returns a non-`NULL` list, `best_or_worst_fit` (any selector) returns one of the
addresses of that list, never the `-1` of a failed lookup. -/
theorem fit_strategies_agree_on_satisfiability (pool : memory) (size fuel : Nat)
    (hsize : 1 ≤ size) (hn : (pool.length : Int) ≤ INT_MAX) (hfuel : pool.length < fuel) :
    (∃ f b w : Int, first_fit fuel pool size = some f ∧
      best_or_worst_fit fuel pool size BEST_FIT = some b ∧
      best_or_worst_fit fuel pool size WORST_FIT = some w ∧
      (f = -1 ↔ b = -1) ∧ (b = -1 ↔ w = -1)) ∧
    ∀ holes, unallocated_pools fuel pool size = some (some holes) →
      ∀ type : Int, ∃ x ∈ holes, best_or_worst_fit fuel pool size type = some x ∧ x ≠ -1 := by
  have hn' := le_int_max hn
  have key : ∀ type : Int,
      (hole_list pool size = [] ∧ best_or_worst_fit fuel pool size type = some (-1)) ∨
      ∃ a, a ∈ hole_list pool size ∧ best_or_worst_fit fuel pool size type = some (a : Int) := by
    intro type
    rcases best_or_worst_fit_spec pool size fuel type hsize hn' hfuel with h | ⟨a, h1, h2, -⟩
    · exact Or.inl h
    · exact Or.inr ⟨a, h1, h2⟩
  refine ⟨?_, ?_⟩
  · rcases first_fit_spec pool size fuel hsize hn' hfuel with ⟨hL, hf⟩ | ⟨a, ha, hf, -⟩
    · rcases key BEST_FIT with ⟨-, hb⟩ | ⟨b, hb, -⟩
      · rcases key WORST_FIT with ⟨-, hw⟩ | ⟨w, hw, -⟩
        · exact ⟨-1, -1, -1, hf, hb, hw, Iff.rfl, Iff.rfl⟩
        · rw [hL] at hw; exact absurd hw (List.not_mem_nil w)
      · rw [hL] at hb; exact absurd hb (List.not_mem_nil b)
    · have hne : hole_list pool size ≠ [] := List.ne_nil_of_mem ha
      rcases key BEST_FIT with ⟨hL, -⟩ | ⟨b, -, hb⟩
      · exact absurd hL hne
      · rcases key WORST_FIT with ⟨hL, -⟩ | ⟨w, -, hw⟩
        · exact absurd hL hne
        · refine ⟨a, b, w, hf, hb, hw, ⟨?_, ?_⟩, ⟨?_, ?_⟩⟩ <;> intro h <;> omega
  · intro holes hholes type
    rw [unallocated_pools_eq pool size fuel hsize hn' hfuel] at hholes
    by_cases hL : hole_list pool size = []
    · rw [if_pos hL] at hholes
      exact Option.noConfusion (Option.some.inj hholes)
    · rw [if_neg hL] at hholes
      have hh : holes = (hole_list pool size).map Int.ofNat :=
        (Option.some.inj (Option.some.inj hholes)).symm
      rcases key type with ⟨h, -⟩ | ⟨a, ha, hb⟩
      · exact absurd h hL
      · refine ⟨(a : Int), ?_, hb, by omega⟩
        rw [hh]
        exact List.mem_map.2 ⟨a, ha, rfl⟩

/-- Instance of C21 on the pool `.A..B...` with `size = 2`. -/
theorem fit_strategies_agree_on_satisfiability_witness :
    (∃ f b w : Int, first_fit 9 sample_pool 2 = some f ∧
      best_or_worst_fit 9 sample_pool 2 BEST_FIT = some b ∧
      best_or_worst_fit 9 sample_pool 2 WORST_FIT = some w ∧
      (f = -1 ↔ b = -1) ∧ (b = -1 ↔ w = -1)) ∧
    ∀ holes, unallocated_pools 9 sample_pool 2 = some (some holes) →
      ∀ type : Int, ∃ x ∈ holes, best_or_worst_fit 9 sample_pool 2 type = some x ∧ x ≠ -1 :=
  fit_strategies_agree_on_satisfiability sample_pool 2 9 (by decide) (by decide) (by decide)

end ContiguousAllocator
